import Mathlib

/-!
Verification of the `multi_vector` crate (src/src/lib.rs): a registry of named
interval stores ("BumpyVector"s) whose entries are inserted in linked groups.

The interval store itself (the `bumpy_vector` crate) is an external
collaborator; it is modelled from the contract the specification states for it
(capacity, non-overlapping insertion, point lookup/removal by any offset
inside an item's span).  Everything else is translated directly from
`src/src/lib.rs`.

State is passed explicitly: a Rust method on `&mut self` becomes a function
returning the new state together with the `SimpleResult` value.  A Rust
`unwrap` failure (panic) is modelled by the `POr.panicked` outcome.
-/

namespace MVec

/-- A coordinate: a vector (buffer) name paired with an offset. -/
abbrev Coord := String × Nat

/-- Mirrors `MultiEntry<T>` from src/src/lib.rs: the payload wrapped with the
name of the vector it lives in and its group link record. -/
structure MultiEntry (T : Type) where
  vector : String
  data : T
  linked : List Coord
deriving DecidableEq, Repr

/-- Mirrors `BumpyEntry<E>` from the `bumpy_vector` crate: a stored item with
its start offset (`index`) and length (`size`). -/
structure BumpyEntry (E : Type) where
  entry : E
  index : Nat
  size : Nat
deriving DecidableEq, Repr

/-- `covers e i`: offset `i` falls inside the span `[e.index, e.index + e.size)`. -/
def covers {E : Type} (e : BumpyEntry E) (i : Nat) : Bool :=
  decide (e.index ≤ i) && decide (i < e.index + e.size)

/-- Two entries' spans intersect. -/
def overlaps {E : Type} (a b : BumpyEntry E) : Bool :=
  decide (a.index < b.index + b.size) && decide (b.index < a.index + a.size)

/-- Modelled from the spec: the external interval store (`BumpyVector`), §4.1
contract — fixed capacity, non-overlapping variably-sized items. -/
structure BumpyVector (E : Type) where
  max_size : Nat
  entries : List (BumpyEntry E)
deriving DecidableEq, Repr

namespace BumpyVector

variable {E : Type}

/-- Modelled from the spec: `create(capacity)` → new empty store. -/
def new (max_size : Nat) : BumpyVector E := ⟨max_size, []⟩

/-- Modelled from the spec: point lookup — the entry whose span covers `i`,
or absent. -/
def get (v : BumpyVector E) (i : Nat) : Option (BumpyEntry E) :=
  v.entries.find? (fun e => covers e i)

/-- Modelled from the spec: `insert` fails if the length is zero, the range is
out of bounds, or the range overlaps an existing entry; otherwise stores it. -/
def insert (v : BumpyVector E) (e : BumpyEntry E) : Except String (BumpyVector E) :=
  if e.size = 0 then .error "zero-length entry"
  else if v.max_size < e.index + e.size then .error "entry exceeds max size"
  else if v.entries.any (fun x => overlaps x e) then .error "overlapping entry"
  else .ok ⟨v.max_size, v.entries ++ [e]⟩

/-- Modelled from the spec: removes and returns the entry covering `i`, or
absent if none covers it. -/
def remove (v : BumpyVector E) (i : Nat) : Option (BumpyEntry E) × BumpyVector E :=
  match v.entries.find? (fun e => covers e i) with
  | none => (none, v)
  | some e => (some e, ⟨v.max_size, v.entries.eraseP (fun x => covers x i)⟩)

/-- Modelled from the spec: count of stored entries. -/
def len (v : BumpyVector E) : Nat := v.entries.length

end BumpyVector

/-- Mirrors `MultiVector<T>`: a map from vector name to `BumpyVector`,
rendered as an association list (the Rust `HashMap`; the API never creates a
duplicate name). -/
structure MultiVector (T : Type) where
  vectors : List (String × BumpyVector (MultiEntry T))
deriving DecidableEq, Repr

/-- Outcome of an operation that can panic (a Rust `unwrap` failure). -/
inductive POr (α : Type) where
  | panicked : POr α
  | ok : α → POr α
deriving DecidableEq, Repr

namespace MultiVector

variable {T : Type}

/-- Mirrors `MultiVector::new()`. -/
def new : MultiVector T := ⟨[]⟩

/-- `self.vectors.get(name)` on the association list. -/
def getVec (mv : MultiVector T) (name : String) : Option (BumpyVector (MultiEntry T)) :=
  (mv.vectors.find? (fun p => p.1 == name)).map (·.2)

/-- Replace the value stored under `name` (first occurrence) in the
association list; identity if the name is absent. -/
def setVecL : List (String × BumpyVector (MultiEntry T)) → String →
    BumpyVector (MultiEntry T) → List (String × BumpyVector (MultiEntry T))
  | [], _, _ => []
  | (k, v) :: rest, name, v' =>
    if k == name then (k, v') :: rest else (k, v) :: setVecL rest name v'

/-- Write back a mutated vector (`self.vectors.get_mut(name)` followed by a
mutation, in the Rust source). -/
def setVec (mv : MultiVector T) (name : String) (v' : BumpyVector (MultiEntry T)) :
    MultiVector T :=
  ⟨setVecL mv.vectors name v'⟩

/-- `self.vectors.remove(name)`: the removed vector (if any) and the rest. -/
def removeVecL : List (String × BumpyVector (MultiEntry T)) → String →
    Option (BumpyVector (MultiEntry T)) × List (String × BumpyVector (MultiEntry T))
  | [], _ => (none, [])
  | (k, v) :: rest, name =>
    if k == name then (some v, rest)
    else
      let r := removeVecL rest name
      (r.1, (k, v) :: r.2)

/-- Mirrors `create_vector`. -/
def create_vector (mv : MultiVector T) (name : String) (max_size : Nat) :
    MultiVector T × Except String Unit :=
  if mv.vectors.any (fun p => p.1 == name) then
    (mv, .error "Vector with that name already exists")
  else
    (⟨mv.vectors ++ [(name, BumpyVector.new max_size)]⟩, .ok ())

/-- Mirrors `destroy_vector`. -/
def destroy_vector (mv : MultiVector T) (vector : String) :
    MultiVector T × Except String Nat :=
  match mv.getVec vector with
  | none => (mv, .error "Vector with that name does not exist")
  | some v =>
    if v.len ≠ 0 then (mv, .error "Vector is not empty")
    else
      match removeVecL mv.vectors vector with
      | (some v', rest) => (⟨rest⟩, .ok v'.max_size)
      | (none, _) => (mv, .error "Vector with that name disappeared")

/-- Mirrors `_force_remove`: remove entries without unlinking, skipping
unknown vectors. -/
def _force_remove (mv : MultiVector T) (entries : List Coord) : MultiVector T :=
  entries.foldl
    (fun acc c =>
      match acc.getVec c.1 with
      | some v => acc.setVec c.1 (v.remove c.2).2
      | none => acc)
    mv

/-- The loop body of `insert_entries`: insert each item in order, tracking the
coordinates inserted so far (`backtrack`) for rollback on failure. -/
def insert_go (refs : List Coord) :
    MultiVector T → List Coord → List (String × T × Nat × Nat) →
    MultiVector T × Except String Unit
  | mv, _, [] => (mv, .ok ())
  | mv, backtrack, (vector, data, index, size) :: rest =>
    match mv.getVec vector with
    | none => (mv._force_remove backtrack, .error ("Couldn't find vector: " ++ vector))
    | some v =>
      match v.insert ⟨⟨vector, data, refs⟩, index, size⟩ with
      | .error e =>
        (mv._force_remove backtrack, .error ("Error inserting into vector: " ++ e))
      | .ok v' => insert_go refs (mv.setVec vector v') (backtrack ++ [(vector, index)]) rest

/-- Mirrors `insert_entries`: compute the shared link record, then insert each
item in order with rollback on the first failure. -/
def insert_entries (mv : MultiVector T) (entries : List (String × T × Nat × Nat)) :
    MultiVector T × Except String Unit :=
  insert_go (entries.map (fun it => (it.1, it.2.2.1))) mv [] entries

/-- Mirrors `insert_entry`: a one-item `insert_entries`. -/
def insert_entry (mv : MultiVector T) (vector : String) (data : T)
    (index : Nat) (size : Nat) : MultiVector T × Except String Unit :=
  mv.insert_entries [(vector, data, index, size)]

/-- An entry with its link record overwritten. -/
def relink (e : BumpyEntry (MultiEntry T)) (nl : List Coord) : BumpyEntry (MultiEntry T) :=
  { e with entry := { e.entry with linked := nl } }

/-- Overwrite the link record of the first entry covering offset `i`
(`v.get_mut(i)` followed by assignment to `.entry.linked`). -/
def setLinkedAt : List (BumpyEntry (MultiEntry T)) → Nat → List Coord →
    List (BumpyEntry (MultiEntry T))
  | [], _, _ => []
  | e :: rest, i, nl =>
    if covers e i then relink e nl :: rest
    else e :: setLinkedAt rest i nl

/-- The rewrite loop of `unlink_entry`: for each remaining linked coordinate,
look the entry up (panicking, as the Rust `unwrap` does, if it is absent) and
replace its link record with `nl`. -/
def unlink_loop (nl : List Coord) :
    MultiVector T → List Coord → POr (MultiVector T)
  | mv, [] => .ok mv
  | mv, (k, i) :: cs =>
    match mv.getVec k with
    | none => .panicked
    | some v =>
      match v.get i with
      | none => .panicked
      | some _ => unlink_loop nl (mv.setVec k ⟨v.max_size, setLinkedAt v.entries i nl⟩) cs

/-- Mirrors `unlink_entry`: detach the entry covering `index` from its group.
The self-coordinate is `(vector, e.index)` — the entry's stored start offset,
not the lookup offset. -/
def unlink_entry (mv : MultiVector T) (vector : String) (index : Nat) :
    POr (MultiVector T × Except String Unit) :=
  match mv.getVec vector with
  | none => .ok (mv, .error ("Couldn't find vector: " ++ vector))
  | some v =>
    match v.get index with
    | none => .ok (mv, .error "Couldn't find index in vector")
    | some e =>
      let mv1 := mv.setVec vector ⟨v.max_size, setLinkedAt v.entries index [(vector, e.index)]⟩
      let new_linked := e.entry.linked.filter (fun c => !(c.1 == vector && c.2 == e.index))
      match unlink_loop new_linked mv1 new_linked with
      | .panicked => .panicked
      | .ok mv2 => .ok (mv2, .ok ())

/-- Mirrors `get_entry`: the entry covering `index` in the named vector. -/
def get_entry (mv : MultiVector T) (vector : String) (index : Nat) :
    Option (BumpyEntry (MultiEntry T)) :=
  (mv.getVec vector).bind (fun v => v.get index)

/-- Mirrors `get_entries`: resolve the entry, then look every coordinate of
its link record up independently, reporting absences per slot. -/
def get_entries (mv : MultiVector T) (vector : String) (index : Nat) :
    Except String (List (Option (BumpyEntry (MultiEntry T)))) :=
  match mv.getVec vector with
  | none => .error ("Couldn't find vector: " ++ vector)
  | some v =>
    match v.get index with
    | none => .error "Couldn't find index in vector"
    | some e => .ok (e.entry.linked.map (fun c => mv.get_entry c.1 c.2))

/-- The removal loop of `remove_entries`: remove the entry at each coordinate,
pushing `none` for a vanished vector or an uncovered offset. -/
def remove_loop : MultiVector T → List Coord →
    MultiVector T × List (Option (BumpyEntry (MultiEntry T)))
  | mv, [] => (mv, [])
  | mv, (k, i) :: cs =>
    match mv.getVec k with
    | none =>
      let r := remove_loop mv cs
      (r.1, none :: r.2)
    | some v =>
      let rv := v.remove i
      let r := remove_loop (mv.setVec k rv.2) cs
      (r.1, rv.1 :: r.2)

/-- Mirrors `remove_entries`: resolve the entry, then remove every coordinate
of its link record in order. -/
def remove_entries (mv : MultiVector T) (vector : String) (index : Nat) :
    MultiVector T × Except String (List (Option (BumpyEntry (MultiEntry T)))) :=
  match mv.getVec vector with
  | none => (mv, .error ("Couldn't find vector: " ++ vector))
  | some v =>
    match v.get index with
    | none => (mv, .error "Couldn't find index in vector")
    | some e =>
      let r := remove_loop mv e.entry.linked
      (r.1, .ok r.2)

/-- Mirrors `vector_count`. -/
def vector_count (mv : MultiVector T) : Nat := mv.vectors.length

/-- Mirrors `vector_exists`. -/
def vector_exists (mv : MultiVector T) (vector : String) : Bool :=
  mv.vectors.any (fun p => p.1 == vector)

/-- Mirrors `len_vector`. -/
def len_vector (mv : MultiVector T) (vector : String) : Option Nat :=
  (mv.getVec vector).map (·.len)

/-- Mirrors `max_size_vector`. -/
def max_size_vector (mv : MultiVector T) (vector : String) : Option Nat :=
  (mv.getVec vector).map (·.max_size)

/-- Mirrors `len`: total number of entries across all vectors. -/
def len (mv : MultiVector T) : Nat :=
  (mv.vectors.map (fun p => p.2.len)).sum

/-- Forget every link record (set each to `[]`): two states related by
`stripLinks` equality agree on everything except link records — the set of
vectors, capacities, and every entry's offset, size, payload and order. -/
def stripLinks (mv : MultiVector T) : MultiVector T :=
  ⟨mv.vectors.map (fun p =>
    (p.1, ⟨p.2.max_size, p.2.entries.map (fun e => relink e [])⟩))⟩

end MultiVector

/-! ### Basic facts about spans -/

variable {T : Type} {E : Type}

theorem covers_iff {e : BumpyEntry E} {i : Nat} :
    covers e i = true ↔ e.index ≤ i ∧ i < e.index + e.size := by
  simp [covers]

theorem overlaps_iff {a b : BumpyEntry E} :
    overlaps a b = true ↔ a.index < b.index + b.size ∧ b.index < a.index + a.size := by
  simp [overlaps]

theorem covers_self_index {e : BumpyEntry E} (h : e.size ≠ 0) : covers e e.index = true := by
  rw [covers_iff]; omega

theorem overlaps_of_covers {a b : BumpyEntry E} {i : Nat}
    (ha : covers a i = true) (hb : covers b i = true) : overlaps a b = true := by
  rw [covers_iff] at ha hb; rw [overlaps_iff]; omega

theorem not_covers_left {a b : BumpyEntry E} {i : Nat}
    (h : overlaps a b = false) (hb : covers b i = true) : covers a i = false := by
  cases hc : covers a i with
  | false => rfl
  | true => rw [overlaps_of_covers hc hb] at h; cases h

/-- A list of entries with pairwise disjoint spans. -/
def PW (es : List (BumpyEntry E)) : Prop :=
  List.Pairwise (fun a b => overlaps a b = false) es

/-- Every entry in the list has nonzero size. -/
def SzOk (es : List (BumpyEntry E)) : Prop := ∀ e ∈ es, e.size ≠ 0

theorem PW.tail_of_cons {h : BumpyEntry E} {t : List (BumpyEntry E)} (hp : PW (h :: t)) :
    PW t := (List.pairwise_cons.mp hp).2

theorem covers_unique {es : List (BumpyEntry E)} (hpw : PW es) {a b : BumpyEntry E}
    (ha : a ∈ es) (hb : b ∈ es) {i : Nat}
    (hca : covers a i = true) (hcb : covers b i = true) : a = b := by
  induction es with
  | nil => cases ha
  | cons h t ih =>
    have hrel := (List.pairwise_cons.mp hpw).1
    have hpt := (List.pairwise_cons.mp hpw).2
    rcases List.mem_cons.mp ha with rfl | hat
    · rcases List.mem_cons.mp hb with rfl | hbt
      · rfl
      · have := not_covers_left (hrel b hbt) hcb
        rw [hca] at this; cases this
    · rcases List.mem_cons.mp hb with rfl | hbt
      · have := not_covers_left (hrel a hat) hca
        rw [hcb] at this; cases this
      · exact ih hpt hat hbt

/-- In a pairwise-disjoint list, point lookup finds any member that covers the
offset (the unique such member). -/
theorem find?_covers_of_mem {es : List (BumpyEntry E)} (hpw : PW es)
    {e : BumpyEntry E} (he : e ∈ es) {i : Nat} (hc : covers e i = true) :
    es.find? (fun x => covers x i) = some e := by
  induction es with
  | nil => cases he
  | cons h t ih =>
    have hrel := (List.pairwise_cons.mp hpw).1
    have hpt := (List.pairwise_cons.mp hpw).2
    cases hh : covers h i with
    | true =>
      have : h = e := covers_unique hpw (List.mem_cons_self _ _) he hh hc
      subst this
      simp [List.find?_cons, hh]
    | false =>
      have het : e ∈ t := by
        rcases List.mem_cons.mp he with rfl | het
        · rw [hc] at hh; cases hh
        · exact het
      simp [List.find?_cons, hh]
      exact ih hpt het

theorem find?_append_left {α : Type} {p : α → Bool} {l₁ l₂ : List α} {a : α}
    (h : l₁.find? p = some a) : (l₁ ++ l₂).find? p = some a := by
  rw [List.find?_append, h]; rfl

theorem find?_append_skip {α : Type} {p : α → Bool} {l₁ l₂ : List α}
    (h : ∀ a ∈ l₁, p a = false) : (l₁ ++ l₂).find? p = l₂.find? p := by
  rw [List.find?_append]
  have : l₁.find? p = none := List.find?_eq_none.mpr (fun a ha => by
    rw [h a ha]; exact Bool.false_ne_true)
  rw [this]; rfl

theorem eraseP_append_skip {α : Type} {p : α → Bool} {l₁ l₂ : List α}
    (h : ∀ a ∈ l₁, p a = false) : (l₁ ++ l₂).eraseP p = l₁ ++ l₂.eraseP p := by
  rw [List.eraseP_append]
  have : l₁.any p = false := by
    rw [List.any_eq_false]
    intro a ha
    rw [h a ha]; exact Bool.false_ne_true
  rw [this]
  simp

/-! ### Association-list lemmas for the registry -/

namespace MultiVector

theorem getVec_cons {k : String} {v : BumpyVector (MultiEntry T)}
    {rest : List (String × BumpyVector (MultiEntry T))} {name : String} :
    getVec (T := T) ⟨(k, v) :: rest⟩ name =
      if k == name then some v else getVec ⟨rest⟩ name := by
  by_cases h : k == name
  · simp [getVec, List.find?_cons, h]
  · simp only [Bool.not_eq_true] at h
    simp [getVec, List.find?_cons, h]

theorem getVec_nil {name : String} : getVec (T := T) ⟨[]⟩ name = none := rfl

theorem setVec_cons {k : String} {v v' : BumpyVector (MultiEntry T)}
    {rest : List (String × BumpyVector (MultiEntry T))} {name : String} :
    setVec (T := T) ⟨(k, v) :: rest⟩ name v' =
      if k == name then ⟨(k, v') :: rest⟩ else ⟨(k, v) :: (setVec ⟨rest⟩ name v').vectors⟩ := by
  by_cases h : k == name
  · simp [setVec, setVecL, h]
  · simp only [Bool.not_eq_true] at h
    simp [setVec, setVecL, h]

theorem getVec_setVec_self {mv : MultiVector T} {k : String}
    {v v' : BumpyVector (MultiEntry T)} (h : mv.getVec k = some v) :
    (mv.setVec k v').getVec k = some v' := by
  obtain ⟨l⟩ := mv
  induction l with
  | nil => simp [getVec] at h
  | cons p rest ih =>
    obtain ⟨k0, v0⟩ := p
    by_cases hk : k0 == k
    · rw [setVec_cons]; simp only [hk, if_pos]
      rw [getVec_cons]; simp [hk]
    · simp only [Bool.not_eq_true] at hk
      rw [getVec_cons] at h; simp only [hk] at h
      rw [setVec_cons]; simp only [hk, Bool.false_eq_true, if_neg, not_false_iff]
      rw [getVec_cons]; simp only [hk, Bool.false_eq_true, if_neg, not_false_iff]
      simp only [if_neg (by simp [hk] : ¬ (k0 == k) = true)] at *
      exact ih h

theorem getVec_setVec_ne {mv : MultiVector T} {k k' : String}
    {v' : BumpyVector (MultiEntry T)} (h : k' ≠ k) :
    (mv.setVec k v').getVec k' = mv.getVec k' := by
  obtain ⟨l⟩ := mv
  induction l with
  | nil => rfl
  | cons p rest ih =>
    obtain ⟨k0, v0⟩ := p
    by_cases hk : k0 == k
    · have hk0 : k0 = k := by simpa using hk
      rw [setVec_cons]; simp only [hk, if_pos]
      rw [getVec_cons, getVec_cons]
      have : (k0 == k') = false := by
        subst hk0
        exact beq_eq_false_iff_ne.mpr (fun hkk => h hkk.symm)
      simp [this]
    · simp only [Bool.not_eq_true] at hk
      rw [setVec_cons]
      simp only [hk, Bool.false_eq_true, if_neg, not_false_iff]
      rw [getVec_cons, getVec_cons]
      by_cases hk' : k0 == k'
      · simp [hk']
      · simp only [Bool.not_eq_true] at hk'
        simp only [hk', Bool.false_eq_true, if_neg, not_false_iff]
        exact ih

theorem setVec_eq_self {mv : MultiVector T} {k : String}
    {v : BumpyVector (MultiEntry T)} (h : mv.getVec k = some v) :
    mv.setVec k v = mv := by
  obtain ⟨l⟩ := mv
  induction l with
  | nil => simp [getVec] at h
  | cons p rest ih =>
    obtain ⟨k0, v0⟩ := p
    rw [setVec_cons]
    by_cases hk : k0 == k
    · simp only [hk, if_pos]
      rw [getVec_cons] at h; simp only [hk, if_pos] at h
      cases h; rfl
    · simp only [Bool.not_eq_true] at hk
      rw [getVec_cons] at h; simp only [hk, Bool.false_eq_true, if_neg, not_false_iff] at h
      simp only [hk, Bool.false_eq_true, if_neg, not_false_iff]
      have := ih h
      rw [MultiVector.mk.injEq] at this ⊢
      rw [this]

theorem setVec_absent {mv : MultiVector T} {k : String}
    {v' : BumpyVector (MultiEntry T)} (h : mv.getVec k = none) :
    mv.setVec k v' = mv := by
  obtain ⟨l⟩ := mv
  induction l with
  | nil => rfl
  | cons p rest ih =>
    obtain ⟨k0, v0⟩ := p
    rw [getVec_cons] at h
    by_cases hk : k0 == k
    · simp [hk] at h
    · simp only [Bool.not_eq_true] at hk
      simp only [hk, Bool.false_eq_true, if_neg, not_false_iff] at h
      rw [setVec_cons]
      simp only [hk, Bool.false_eq_true, if_neg, not_false_iff]
      have := ih h
      rw [MultiVector.mk.injEq] at this ⊢
      rw [this]

theorem keys_setVec {mv : MultiVector T} {k : String} {v' : BumpyVector (MultiEntry T)} :
    (mv.setVec k v').vectors.map Prod.fst = mv.vectors.map Prod.fst := by
  obtain ⟨l⟩ := mv
  induction l with
  | nil => rfl
  | cons p rest ih =>
    obtain ⟨k0, v0⟩ := p
    rw [setVec_cons]
    by_cases hk : k0 == k
    · simp [hk]
    · simp only [Bool.not_eq_true] at hk
      simp only [hk, Bool.false_eq_true, if_neg, not_false_iff]
      simpa using ih

theorem mem_setVec {mv : MultiVector T} {k : String} {v' : BumpyVector (MultiEntry T)}
    {p : String × BumpyVector (MultiEntry T)} (h : p ∈ (mv.setVec k v').vectors) :
    p ∈ mv.vectors ∨ p.2 = v' := by
  obtain ⟨l⟩ := mv
  induction l with
  | nil => cases h
  | cons q rest ih =>
    obtain ⟨k0, v0⟩ := q
    rw [setVec_cons] at h
    by_cases hk : k0 == k
    · simp only [hk, if_pos] at h
      rcases List.mem_cons.mp h with rfl | hrest
      · right; rfl
      · left; exact List.mem_cons_of_mem _ hrest
    · simp only [Bool.not_eq_true] at hk
      simp only [hk, Bool.false_eq_true, if_neg, not_false_iff] at h
      rcases List.mem_cons.mp h with rfl | hrest
      · left; exact List.mem_cons_self _ _
      · rcases ih hrest with hl | hr
        · left; exact List.mem_cons_of_mem _ hl
        · right; exact hr

/-- With distinct keys, association-list membership determines `getVec`. -/
theorem getVec_of_mem {mv : MultiVector T}
    (hnd : (mv.vectors.map Prod.fst).Nodup)
    {p : String × BumpyVector (MultiEntry T)} (h : p ∈ mv.vectors) :
    mv.getVec p.1 = some p.2 := by
  obtain ⟨l⟩ := mv
  induction l with
  | nil => cases h
  | cons q rest ih =>
    obtain ⟨k0, v0⟩ := q
    rcases List.mem_cons.mp h with rfl | hrest
    · rw [getVec_cons]; simp
    · rw [getVec_cons]
      have hk : k0 ≠ p.1 := by
        intro hkeq
        have : p.1 ∈ rest.map Prod.fst := List.mem_map_of_mem _ hrest
        rw [List.map_cons, List.nodup_cons] at hnd
        exact hnd.1 (hkeq ▸ this)
      have : (k0 == p.1) = false := beq_eq_false_iff_ne.mpr hk
      simp only [this, Bool.false_eq_true, if_neg, not_false_iff]
      exact ih (by rw [List.map_cons, List.nodup_cons] at hnd; exact hnd.2) hrest

/-- The registry's keys are distinct (always true of the Rust `HashMap`; an
artifact hypothesis of the association-list rendering). -/
def KeysNodup (mv : MultiVector T) : Prop := (mv.vectors.map Prod.fst).Nodup

theorem getVec_mem {mv : MultiVector T} {k : String} {v : BumpyVector (MultiEntry T)}
    (h : mv.getVec k = some v) : (k, v) ∈ mv.vectors := by
  obtain ⟨l⟩ := mv
  induction l with
  | nil => simp [getVec] at h
  | cons q rest ih =>
    obtain ⟨k0, v0⟩ := q
    rw [getVec_cons] at h
    by_cases hk : k0 == k
    · simp only [hk, if_pos] at h
      cases h
      have : k0 = k := by simpa using hk
      subst this
      exact List.mem_cons_self _ _
    · simp only [Bool.not_eq_true] at hk
      simp only [hk, Bool.false_eq_true, if_neg, not_false_iff] at h
      exact List.mem_cons_of_mem _ (ih h)

end MultiVector

/-! ### Characterizing a successful interval-store insertion -/

theorem insert_ok_iff {v : BumpyVector E} {e : BumpyEntry E} {v' : BumpyVector E} :
    v.insert e = .ok v' ↔
      e.size ≠ 0 ∧ e.index + e.size ≤ v.max_size ∧
      (∀ x ∈ v.entries, overlaps x e = false) ∧ v' = ⟨v.max_size, v.entries ++ [e]⟩ := by
  unfold BumpyVector.insert
  by_cases h1 : e.size = 0
  · rw [if_pos h1]
    constructor
    · intro h; cases h
    · intro h; exact absurd h1 h.1
  · rw [if_neg h1]
    by_cases h2 : v.max_size < e.index + e.size
    · rw [if_pos h2]
      constructor
      · intro h; cases h
      · intro h; exact absurd h.2.1 (by omega)
    · rw [if_neg h2]
      by_cases h3 : (v.entries.any fun x => overlaps x e) = true
      · rw [if_pos h3]
        constructor
        · intro h; cases h
        · intro h
          obtain ⟨x, hx, hov⟩ := List.any_eq_true.mp h3
          rw [h.2.2.1 x hx] at hov
          cases hov
      · rw [if_neg h3]
        rw [Bool.not_eq_true, List.any_eq_false] at h3
        constructor
        · intro h
          cases h
          refine ⟨h1, by omega, ?_, rfl⟩
          intro x hx
          have := h3 x hx
          simpa using this
        · intro h
          rw [h.2.2.2]

/-! ### The appended-entries view of a group insert -/

/-- The raw `BumpyEntry`s appended to vector `k` by a list of insertions. -/
def appFor (apps : List (String × BumpyEntry (MultiEntry T))) (k : String) :
    List (BumpyEntry (MultiEntry T)) :=
  (apps.filter (fun p => p.1 == k)).map (·.2)

/-- The coordinates of a list of insertions, in order. -/
def appsCoords (apps : List (String × BumpyEntry (MultiEntry T))) : List Coord :=
  apps.map (fun p => (p.1, p.2.index))

/-- `mv` with the entries of `apps` appended to the named vectors. -/
def augment (mv : MultiVector T) (apps : List (String × BumpyEntry (MultiEntry T))) :
    MultiVector T :=
  ⟨mv.vectors.map (fun p => (p.1, ⟨p.2.max_size, p.2.entries ++ appFor apps p.1⟩))⟩

theorem appFor_nil {k : String} : appFor (T := T) [] k = [] := rfl

theorem appFor_cons {k0 k : String} {b : BumpyEntry (MultiEntry T)}
    {apps : List (String × BumpyEntry (MultiEntry T))} :
    appFor ((k0, b) :: apps) k =
      if k0 == k then b :: appFor apps k else appFor apps k := by
  by_cases h : k0 == k
  · simp [appFor, List.filter_cons, h]
  · simp only [Bool.not_eq_true] at h
    simp [appFor, List.filter_cons, h]

theorem appFor_append {k : String}
    {l₁ l₂ : List (String × BumpyEntry (MultiEntry T))} :
    appFor (l₁ ++ l₂) k = appFor l₁ k ++ appFor l₂ k := by
  simp [appFor, List.filter_append]

theorem mem_appFor_of_mem {k : String} {b : BumpyEntry (MultiEntry T)}
    {apps : List (String × BumpyEntry (MultiEntry T))} (h : (k, b) ∈ apps) :
    b ∈ appFor apps k := by
  have hmem : (k, b) ∈ apps.filter (fun p => p.1 == k) :=
    List.mem_filter.mpr ⟨h, by simp⟩
  show b ∈ (apps.filter (fun p => p.1 == k)).map (·.2)
  exact List.mem_map_of_mem _ hmem

theorem augment_nil {mv : MultiVector T} : augment mv [] = mv := by
  obtain ⟨l⟩ := mv
  rw [MultiVector.mk.injEq]
  show l.map (fun p => (p.1, ⟨p.2.max_size, p.2.entries ++ appFor [] p.1⟩)) = l
  have hpt : ∀ p ∈ l, (p.1, (⟨p.2.max_size, p.2.entries ++ appFor [] p.1⟩ :
      BumpyVector (MultiEntry T))) = id p := by
    intro p _
    rw [appFor_nil, List.append_nil]
    rfl
  rw [List.map_congr_left hpt, List.map_id]

theorem getVec_augment {mv : MultiVector T}
    {apps : List (String × BumpyEntry (MultiEntry T))} {k : String} :
    (augment mv apps).getVec k =
      (mv.getVec k).map (fun v => ⟨v.max_size, v.entries ++ appFor apps k⟩) := by
  obtain ⟨l⟩ := mv
  induction l with
  | nil => rfl
  | cons p rest ih =>
    obtain ⟨k0, v0⟩ := p
    show MultiVector.getVec ⟨(k0, _) :: _⟩ k = _
    rw [MultiVector.getVec_cons]
    by_cases h : k0 == k
    · have : k0 = k := by simpa using h
      subst this
      rw [MultiVector.getVec_cons]
      simp [h]
    · simp only [Bool.not_eq_true] at h
      rw [MultiVector.getVec_cons]
      simp only [h, Bool.false_eq_true, if_neg, not_false_iff]
      exact ih

theorem keys_augment {mv : MultiVector T}
    {apps : List (String × BumpyEntry (MultiEntry T))} :
    (augment mv apps).vectors.map Prod.fst = mv.vectors.map Prod.fst := by
  simp [augment, List.map_map]

/-- Writing an augmented vector back produces the augmentation by the new
insertion list, provided every other key's appended entries agree. -/
theorem setVec_augment {mv : MultiVector T} (hnd : MultiVector.KeysNodup mv)
    {k : String} {v : BumpyVector (MultiEntry T)} (hv : mv.getVec k = some v)
    {apps1 apps2 : List (String × BumpyEntry (MultiEntry T))}
    (hother : ∀ k', k' ≠ k → appFor apps2 k' = appFor apps1 k') :
    (augment mv apps1).setVec k ⟨v.max_size, v.entries ++ appFor apps2 k⟩ =
      augment mv apps2 := by
  obtain ⟨l⟩ := mv
  induction l with
  | nil => simp [MultiVector.getVec] at hv
  | cons p rest ih =>
    obtain ⟨k0, v0⟩ := p
    show MultiVector.setVec ⟨((k0, _) :: _ : List _).map _⟩ k _ = _
    rw [List.map_cons, MultiVector.setVec_cons]
    by_cases h : k0 == k
    · simp only [h, if_pos]
      have hk0 : k0 = k := by simpa using h
      subst hk0
      rw [MultiVector.getVec_cons] at hv
      simp only [beq_self_eq_true, if_pos] at hv
      cases hv
      rw [MultiVector.mk.injEq]
      simp only [augment, List.map_cons, List.cons.injEq]
      refine ⟨trivial, ?_⟩
      have hrest : ∀ q ∈ rest, q.1 ≠ k0 := by
        intro q hq hqk
        unfold MultiVector.KeysNodup at hnd
        rw [List.map_cons, List.nodup_cons] at hnd
        apply hnd.1
        rw [← hqk]
        exact List.mem_map.mpr ⟨q, hq, rfl⟩
      apply List.map_congr_left
      intro q hq
      rw [hother q.1 (hrest q hq)]
    · simp only [Bool.not_eq_true] at h
      simp only [h, Bool.false_eq_true, if_neg, not_false_iff]
      have hk0 : k0 ≠ k := by
        intro hkeq; rw [hkeq] at h; simp at h
      rw [MultiVector.getVec_cons] at hv
      simp only [h, Bool.false_eq_true, if_neg, not_false_iff] at hv
      have hnd' : MultiVector.KeysNodup (T := T) ⟨rest⟩ := by
        unfold MultiVector.KeysNodup at hnd ⊢
        rw [List.map_cons, List.nodup_cons] at hnd
        exact hnd.2
      have := ih hnd' hv
      rw [MultiVector.mk.injEq]
      simp only [augment, List.map_cons, List.cons.injEq]
      constructor
      · rw [hother k0 hk0]
      · have h2 := congrArg MultiVector.vectors this
        simpa [augment, MultiVector.setVec] using h2

/-- Invariant linking a base registry to a list of raw insertions produced by
a partially completed group insert. -/
structure InsInv (mv : MultiVector T) (apps : List (String × BumpyEntry (MultiEntry T))) :
    Prop where
  nodup : MultiVector.KeysNodup mv
  live : ∀ p ∈ apps, ∃ v, mv.getVec p.1 = some v
  szpos : ∀ p ∈ apps, p.2.size ≠ 0
  noov : ∀ p ∈ apps, ∀ v, mv.getVec p.1 = some v → ∀ e ∈ v.entries, overlaps e p.2 = false
  pw : ∀ k, PW (appFor apps k)

theorem InsInv.nil {mv : MultiVector T} (hnd : MultiVector.KeysNodup mv) :
    InsInv mv [] := by
  refine ⟨hnd, ?_, ?_, ?_, ?_⟩ <;> intros <;> first
    | exact List.Pairwise.nil
    | simp_all [appFor_nil]

theorem InsInv.of_cons {mv : MultiVector T} {p : String × BumpyEntry (MultiEntry T)}
    {apps : List (String × BumpyEntry (MultiEntry T))} (h : InsInv mv (p :: apps)) :
    InsInv mv apps := by
  refine ⟨h.nodup, ?_, ?_, ?_, ?_⟩
  · exact fun q hq => h.live q (List.mem_cons_of_mem _ hq)
  · exact fun q hq => h.szpos q (List.mem_cons_of_mem _ hq)
  · exact fun q hq => h.noov q (List.mem_cons_of_mem _ hq)
  · intro k
    obtain ⟨k0, b⟩ := p
    have := h.pw k
    rw [appFor_cons] at this
    by_cases hk : k0 == k
    · rw [if_pos hk] at this
      exact this.tail_of_cons
    · simp only [Bool.not_eq_true] at hk
      rw [hk] at this
      simpa using this

/-- Removing the inserted coordinates, in insertion order, takes the augmented
registry back to the base and returns exactly the inserted entries. -/
theorem remove_loop_apps {mv : MultiVector T}
    {apps : List (String × BumpyEntry (MultiEntry T))} (hinv : InsInv mv apps) :
    MultiVector.remove_loop (augment mv apps) (appsCoords apps) =
      (mv, apps.map (fun p => some p.2)) := by
  induction apps with
  | nil =>
    show MultiVector.remove_loop (augment mv []) [] = _
    rw [augment_nil]
    rfl
  | cons p apps' ih =>
    obtain ⟨k, b⟩ := p
    obtain ⟨v, hv⟩ := hinv.live (k, b) (List.mem_cons_self _ _)
    have hsz : b.size ≠ 0 := hinv.szpos (k, b) (List.mem_cons_self _ _)
    have hnoov : ∀ e ∈ v.entries, overlaps e b = false :=
      hinv.noov (k, b) (List.mem_cons_self _ _) v hv
    have hgv : (augment mv ((k, b) :: apps')).getVec k =
        some ⟨v.max_size, v.entries ++ (b :: appFor apps' k)⟩ := by
      rw [getVec_augment, hv]
      simp [appFor_cons]
    have hcov : covers b b.index = true := covers_self_index hsz
    have hskip : ∀ e ∈ v.entries, (fun x => covers x b.index) e = false := by
      intro e he
      exact not_covers_left (hnoov e he) hcov
    have hfind : (v.entries ++ (b :: appFor apps' k)).find? (fun x => covers x b.index)
        = some b := by
      rw [find?_append_skip hskip]
      simp [List.find?_cons, hcov]
    have herase : (v.entries ++ (b :: appFor apps' k)).eraseP (fun x => covers x b.index)
        = v.entries ++ appFor apps' k := by
      rw [eraseP_append_skip hskip]
      congr 1
      exact List.eraseP_cons_of_pos (p := fun x => covers x b.index) hcov
    show MultiVector.remove_loop (augment mv ((k, b) :: apps'))
        ((k, b.index) :: appsCoords apps') = _
    rw [MultiVector.remove_loop]
    simp only [hgv]
    rw [BumpyVector.remove]
    simp only [hfind, herase]
    have hset : (augment mv ((k, b) :: apps')).setVec k
        ⟨v.max_size, v.entries ++ appFor apps' k⟩ = augment mv apps' := by
      apply setVec_augment hinv.nodup hv
      intro k' hk'
      rw [appFor_cons]
      have : (k == k') = false := beq_eq_false_iff_ne.mpr (fun hkk => hk' hkk.symm)
      rw [this]
      simp
    rw [hset, ih hinv.of_cons]
    rfl

theorem appsCoords_append {l₁ l₂ : List (String × BumpyEntry (MultiEntry T))} :
    appsCoords (l₁ ++ l₂) = appsCoords l₁ ++ appsCoords l₂ := by
  simp [appsCoords]

/-- The raw insertion a group-insert item gives rise to. -/
def entryOf (refs : List Coord) (it : String × T × Nat × Nat) :
    String × BumpyEntry (MultiEntry T) :=
  (it.1, ⟨⟨it.1, it.2.1, refs⟩, it.2.2.1, it.2.2.2⟩)

theorem force_remove_eq_remove_loop {mv : MultiVector T} {cs : List Coord} :
    mv._force_remove cs = (MultiVector.remove_loop mv cs).1 := by
  induction cs generalizing mv with
  | nil => rfl
  | cons c cs ih =>
    obtain ⟨k, i⟩ := c
    show MultiVector._force_remove mv ((k, i) :: cs) = _
    rw [MultiVector._force_remove, List.foldl_cons, MultiVector.remove_loop]
    cases hv : mv.getVec k with
    | none =>
      simp only [hv]
      exact ih
    | some v =>
      simp only [hv]
      exact ih

theorem get_entry_eq_some {mv : MultiVector T} {b : String} {o : Nat}
    {f : BumpyEntry (MultiEntry T)} :
    mv.get_entry b o = some f ↔ ∃ v, mv.getVec b = some v ∧ v.get o = some f := by
  unfold MultiVector.get_entry
  exact Option.bind_eq_some

/-- Point lookup in an augmented registry finds an inserted entry at any
offset its span covers. -/
theorem get_entry_augment {mv : MultiVector T}
    {apps : List (String × BumpyEntry (MultiEntry T))} (hinv : InsInv mv apps)
    {k : String} {b : BumpyEntry (MultiEntry T)} (hmem : (k, b) ∈ apps)
    {o : Nat} (hc : covers b o = true) :
    (augment mv apps).get_entry k o = some b := by
  obtain ⟨v, hv⟩ := hinv.live (k, b) hmem
  have hnoov := hinv.noov (k, b) hmem v hv
  rw [get_entry_eq_some]
  refine ⟨⟨v.max_size, v.entries ++ appFor apps k⟩, ?_, ?_⟩
  · rw [getVec_augment, hv]; rfl
  · show (v.entries ++ appFor apps k).find? (fun x => covers x o) = some b
    rw [find?_append_skip (fun e he => not_covers_left (hnoov e he) hc)]
    exact find?_covers_of_mem (hinv.pw k) (mem_appFor_of_mem hmem) hc

/-- The full behaviour of the insertion loop, relative to a base registry and
the insertions already performed: an error rolls back to the base; success
appends exactly the remaining items' entries. -/
theorem insert_go_spec {mv : MultiVector T} {refs : List Coord} :
    ∀ {rest : List (String × T × Nat × Nat)}
      {apps : List (String × BumpyEntry (MultiEntry T))}, InsInv mv apps →
      (∀ mvF msg,
        MultiVector.insert_go refs (augment mv apps) (appsCoords apps) rest =
          (mvF, .error msg) → mvF = mv) ∧
      (∀ mvF,
        MultiVector.insert_go refs (augment mv apps) (appsCoords apps) rest =
          (mvF, .ok ()) →
        mvF = augment mv (apps ++ rest.map (entryOf refs)) ∧
          InsInv mv (apps ++ rest.map (entryOf refs))) := by
  intro rest
  induction rest with
  | nil =>
    intro apps hinv
    constructor
    · intro mvF msg h
      rw [MultiVector.insert_go] at h
      cases h
    · intro mvF h
      rw [MultiVector.insert_go] at h
      rw [Prod.mk.injEq] at h
      rw [List.map_nil, List.append_nil]
      exact ⟨h.1.symm, hinv⟩
  | cons it rest ih =>
    intro apps hinv
    obtain ⟨vec, data, idx, size⟩ := it
    have hrollback : (augment mv apps)._force_remove (appsCoords apps) = mv := by
      rw [force_remove_eq_remove_loop, remove_loop_apps hinv]
    have hmain : ∀ res,
        MultiVector.insert_go refs (augment mv apps) (appsCoords apps)
          ((vec, data, idx, size) :: rest) = res →
        (res.1 = mv ∧ ∃ msg, res.2 = Except.error msg) ∨
        (∃ apps1, res =
            MultiVector.insert_go refs (augment mv apps1) (appsCoords apps1) rest ∧
          InsInv mv apps1 ∧
          apps1 = apps ++ [entryOf refs (vec, data, idx, size)]) := by
      intro res h
      rw [MultiVector.insert_go] at h
      split at h
      · left
        constructor
        · rw [← h]; exact hrollback
        · rw [← h]; exact ⟨_, rfl⟩
      · rename_i va hgv
        rw [getVec_augment] at hgv
        cases hbase : mv.getVec vec with
        | none => rw [hbase] at hgv; cases hgv
        | some v =>
          rw [hbase, Option.map_some'] at hgv
          injection hgv with hva
          subst hva
          split at h
          · left
            constructor
            · rw [← h]; exact hrollback
            · rw [← h]; exact ⟨_, rfl⟩
          · rename_i v' hins
            rw [insert_ok_iff] at hins
            obtain ⟨hsz, hbound, hnoov, rfl⟩ := hins
            right
            refine ⟨apps ++ [(vec, ⟨⟨vec, data, refs⟩, idx, size⟩)], ?_, ?_, rfl⟩
            · rw [← h]
              have hstate : (augment mv apps).setVec vec
                  ⟨v.max_size, (v.entries ++ appFor apps vec) ++
                    [⟨⟨vec, data, refs⟩, idx, size⟩]⟩ =
                  augment mv (apps ++ [(vec, ⟨⟨vec, data, refs⟩, idx, size⟩)]) := by
                rw [List.append_assoc]
                have hFor : appFor (apps ++ [(vec, ⟨⟨vec, data, refs⟩, idx, size⟩)]) vec =
                    appFor apps vec ++ [⟨⟨vec, data, refs⟩, idx, size⟩] := by
                  rw [appFor_append, appFor_cons, appFor_nil, if_pos (by simp)]
                rw [← hFor]
                apply setVec_augment hinv.nodup hbase
                intro k' hk'
                rw [appFor_append, appFor_cons, appFor_nil]
                rw [if_neg (by simpa using fun hkk => hk' hkk.symm), List.append_nil]
              have hcoords : appsCoords apps ++ [(vec, idx)] =
                  appsCoords (apps ++ [(vec, ⟨⟨vec, data, refs⟩, idx, size⟩)]) := by
                rw [appsCoords_append]
                rfl
              rw [hstate, hcoords]
            · refine ⟨hinv.nodup, ?_, ?_, ?_, ?_⟩
              · intro p hp
                rcases List.mem_append.mp hp with hp | hp
                · exact hinv.live p hp
                · rw [List.mem_singleton] at hp
                  subst hp
                  exact ⟨v, hbase⟩
              · intro p hp
                rcases List.mem_append.mp hp with hp | hp
                · exact hinv.szpos p hp
                · rw [List.mem_singleton] at hp
                  subst hp
                  exact hsz
              · intro p hp v'' hv'' e he
                rcases List.mem_append.mp hp with hp | hp
                · exact hinv.noov p hp v'' hv'' e he
                · rw [List.mem_singleton] at hp
                  subst hp
                  rw [hbase] at hv''
                  injection hv'' with hv''
                  subst hv''
                  exact hnoov e (List.mem_append_left _ he)
              · intro k
                rw [appFor_append, appFor_cons, appFor_nil]
                by_cases hk : vec == k
                · rw [if_pos hk]
                  show List.Pairwise (fun a b => overlaps a b = false) _
                  rw [List.pairwise_append]
                  refine ⟨hinv.pw k, List.pairwise_singleton _ _, ?_⟩
                  intro a ha b hb
                  rw [List.mem_singleton] at hb
                  subst hb
                  have hk' : vec = k := by simpa using hk
                  subst hk'
                  exact hnoov a (List.mem_append_right _ ha)
                · rw [if_neg (by simpa using hk), List.append_nil]
                  exact hinv.pw k
    constructor
    · intro mvF msg h
      rcases hmain _ h with ⟨h1, _⟩ | ⟨apps1, hres, hinv1, happ⟩
      · exact h1
      · exact (ih hinv1).1 mvF msg hres.symm
    · intro mvF h
      rcases hmain _ h with ⟨_, m, hm⟩ | ⟨apps1, hres, hinv1, happ⟩
      · exact absurd hm (by simp)
      · have hr := (ih hinv1).2 mvF hres.symm
        subst happ
        rw [List.append_assoc, List.singleton_append, ← List.map_cons] at hr
        exact hr

/-- Top-level behaviour of `insert_entries` on a registry with distinct keys:
an error leaves the state equal to the pre-call state; success produces
exactly the augmentation by the items' wrapped entries. -/
theorem insert_entries_spec {mv : MultiVector T}
    {entries : List (String × T × Nat × Nat)} (hnd : MultiVector.KeysNodup mv) :
    (∀ mvF msg, mv.insert_entries entries = (mvF, .error msg) → mvF = mv) ∧
    (∀ mvF, mv.insert_entries entries = (mvF, .ok ()) →
      mvF = augment mv (entries.map (entryOf (entries.map fun it => (it.1, it.2.2.1)))) ∧
      InsInv mv (entries.map (entryOf (entries.map fun it => (it.1, it.2.2.1))))) := by
  have h := @insert_go_spec T mv (entries.map fun it => (it.1, it.2.2.1))
      entries ([] : List (String × BumpyEntry (MultiEntry T)))
      (InsInv.nil hnd)
  rw [augment_nil] at h
  rw [show appsCoords ([] : List (String × BumpyEntry (MultiEntry T))) = [] from rfl] at h
  rw [List.nil_append] at h
  exact h

/-- C1: for every `insert_entries` call on a registry (with distinct vector
names), either every supplied item is afterwards visible via `get_entry` at
its coordinate — wrapped with the full caller-order link record — or the call
returns an error and the entire registry state equals the state before the
call; and an empty items list succeeds with no effect. -/
theorem C1_insert_entries_atomic {T : Type} (mv : MultiVector T)
    (entries : List (String × T × Nat × Nat)) (hnd : MultiVector.KeysNodup mv) :
    (∀ mvF msg, mv.insert_entries entries = (mvF, Except.error msg) → mvF = mv) ∧
    (∀ mvF, mv.insert_entries entries = (mvF, Except.ok ()) →
      ∀ vec data idx size, (vec, data, idx, size) ∈ entries →
        mvF.get_entry vec idx =
          some ⟨⟨vec, data, entries.map (fun it => (it.1, it.2.2.1))⟩, idx, size⟩) ∧
    mv.insert_entries ([] : List (String × T × Nat × Nat)) = (mv, Except.ok ()) := by
  refine ⟨(insert_entries_spec hnd).1, ?_, rfl⟩
  intro mvF h vec data idx size hmem
  obtain ⟨rfl, hinv⟩ := (insert_entries_spec hnd).2 mvF h
  have hpair : (vec, (⟨⟨vec, data, entries.map fun it => (it.1, it.2.2.1)⟩, idx, size⟩ :
      BumpyEntry (MultiEntry T))) ∈
      entries.map (entryOf (entries.map fun it => (it.1, it.2.2.1))) :=
    List.mem_map_of_mem _ hmem
  have hsz := hinv.szpos _ hpair
  exact get_entry_augment hinv hpair (covers_self_index hsz)

/-- C3: after a successful `insert_entries` of a group, `remove_entries` at
any offset inside any one member's span removes exactly the group — returning
the inserted entries in insertion order, each carrying the full caller-order
coordinate list as link record — and restores the registry to its pre-insert
state. -/
theorem C3_remove_group_roundtrip {T : Type} (mv : MultiVector T)
    (entries : List (String × T × Nat × Nat)) (hnd : MultiVector.KeysNodup mv)
    (mv1 : MultiVector T) (hok : mv.insert_entries entries = (mv1, Except.ok ()))
    (vec : String) (data : T) (idx size : Nat)
    (hmem : (vec, data, idx, size) ∈ entries)
    (o : Nat) (h1 : idx ≤ o) (h2 : o < idx + size) :
    mv1.remove_entries vec o =
      (mv, Except.ok (entries.map (fun it =>
        some ⟨⟨it.1, it.2.1, entries.map (fun j => (j.1, j.2.2.1))⟩,
          it.2.2.1, it.2.2.2⟩))) := by
  obtain ⟨rfl, hinv⟩ := (insert_entries_spec hnd).2 mv1 hok
  have hpair : (vec, (⟨⟨vec, data, entries.map fun it => (it.1, it.2.2.1)⟩, idx, size⟩ :
      BumpyEntry (MultiEntry T))) ∈
      entries.map (entryOf (entries.map fun it => (it.1, it.2.2.1))) :=
    List.mem_map_of_mem _ hmem
  have hcov : covers (⟨⟨vec, data, entries.map fun it => (it.1, it.2.2.1)⟩, idx, size⟩ :
      BumpyEntry (MultiEntry T)) o = true := by
    rw [covers_iff]
    exact ⟨h1, h2⟩
  have hget := get_entry_augment hinv hpair hcov
  rw [get_entry_eq_some] at hget
  obtain ⟨va, hva, hvget⟩ := hget
  simp only [MultiVector.remove_entries, hva, hvget]
  have hrl : (entries.map fun it => (it.1, it.2.2.1)) =
      appsCoords (entries.map (entryOf (entries.map fun it => (it.1, it.2.2.1)))) := by
    rw [appsCoords, List.map_map]
    rfl
  have hloop := remove_loop_apps hinv
  rw [← hrl] at hloop
  rw [hloop, List.map_map]
  rfl

/-! ### Well-formed vectors, and the effect of rewriting one link record -/

namespace MultiVector

/-- Per-vector well-formedness: pairwise disjoint spans, nonzero sizes. -/
def VecOk (v : BumpyVector (MultiEntry T)) : Prop := PW v.entries ∧ SzOk v.entries

/-- Every vector of the registry is well-formed. -/
def AllOk (mv : MultiVector T) : Prop := ∀ p ∈ mv.vectors, VecOk p.2

theorem covers_relink {e : BumpyEntry (MultiEntry T)} {nl : List Coord} {o : Nat} :
    covers (relink e nl) o = covers e o := rfl

theorem relink_relink {e : BumpyEntry (MultiEntry T)} {nl nl' : List Coord} :
    relink (relink e nl) nl' = relink e nl' := rfl

theorem index_relink {e : BumpyEntry (MultiEntry T)} {nl : List Coord} :
    (relink e nl).index = e.index := rfl

theorem size_relink {e : BumpyEntry (MultiEntry T)} {nl : List Coord} :
    (relink e nl).size = e.size := rfl

theorem overlaps_relink_right {a b : BumpyEntry (MultiEntry T)} {nl : List Coord} :
    overlaps a (relink b nl) = overlaps a b := rfl

theorem overlaps_relink_left {a b : BumpyEntry (MultiEntry T)} {nl : List Coord} :
    overlaps (relink a nl) b = overlaps a b := rfl

theorem covers_of_get {v : BumpyVector (MultiEntry T)} {i : Nat}
    {e : BumpyEntry (MultiEntry T)} (h : v.get i = some e) : covers e i = true := by
  have h' : v.entries.find? (fun x => covers x i) = some e := h
  simpa using List.find?_some h'

theorem mem_of_get {v : BumpyVector (MultiEntry T)} {i : Nat}
    {e : BumpyEntry (MultiEntry T)} (h : v.get i = some e) : e ∈ v.entries := by
  have h' : v.entries.find? (fun x => covers x i) = some e := h
  exact List.mem_of_find?_eq_some h'

/-- In a well-formed vector, anything covering the offset of a lookup result
is that result. -/
theorem get_eq_of_covers {v : BumpyVector (MultiEntry T)} (hok : VecOk v) {o : Nat}
    {f : BumpyEntry (MultiEntry T)} (hf : f ∈ v.entries) (hc : covers f o = true) :
    v.get o = some f :=
  find?_covers_of_mem hok.1 hf hc

theorem map_relink_setLinkedAt {es : List (BumpyEntry (MultiEntry T))} {i : Nat}
    {nl : List Coord} :
    (setLinkedAt es i nl).map (fun e => relink e []) = es.map (fun e => relink e []) := by
  induction es with
  | nil => rfl
  | cons h t ih =>
    rw [setLinkedAt]
    by_cases hc : covers h i
    · rw [if_pos hc, List.map_cons, List.map_cons, relink_relink]
    · rw [if_neg hc, List.map_cons, List.map_cons, ih]

/-- Membership in `setLinkedAt es i nl` comes from membership in `es`, up to a
relink. -/
theorem mem_setLinkedAt {es : List (BumpyEntry (MultiEntry T))} {i : Nat} {nl : List Coord}
    {x : BumpyEntry (MultiEntry T)} (hx : x ∈ setLinkedAt es i nl) :
    ∃ y ∈ es, x = y ∨ x = relink y nl := by
  induction es with
  | nil => cases hx
  | cons y t ih =>
    rw [setLinkedAt] at hx
    by_cases hcy : covers y i
    · rw [if_pos hcy] at hx
      rcases List.mem_cons.mp hx with rfl | hx2
      · exact ⟨y, List.mem_cons_self _ _, Or.inr rfl⟩
      · exact ⟨x, List.mem_cons_of_mem _ hx2, Or.inl rfl⟩
    · rw [if_neg hcy] at hx
      rcases List.mem_cons.mp hx with rfl | hx2
      · exact ⟨x, List.mem_cons_self _ _, Or.inl rfl⟩
      · obtain ⟨z, hz, hzz⟩ := ih hx2
        exact ⟨z, List.mem_cons_of_mem _ hz, hzz⟩

theorem rel_setLinkedAt {t : List (BumpyEntry (MultiEntry T))}
    {hd : BumpyEntry (MultiEntry T)} {i : Nat} {nl : List Coord}
    (hrel : ∀ x ∈ t, overlaps hd x = false) :
    ∀ x ∈ setLinkedAt t i nl, overlaps hd x = false := by
  intro x hx
  obtain ⟨y, hy, hyy⟩ := mem_setLinkedAt hx
  rcases hyy with rfl | rfl
  · exact hrel _ hy
  · rw [overlaps_relink_right]
    exact hrel _ hy

theorem pw_setLinkedAt {es : List (BumpyEntry (MultiEntry T))} {i : Nat} {nl : List Coord}
    (h : List.Pairwise (fun a b => overlaps a b = false) es) :
    List.Pairwise (fun a b => overlaps a b = false) (setLinkedAt es i nl) := by
  induction es with
  | nil => exact h
  | cons e t ih =>
    rw [List.pairwise_cons] at h
    rw [setLinkedAt]
    by_cases hc : covers e i
    · rw [if_pos hc]
      rw [List.pairwise_cons]
      exact ⟨fun x hx => h.1 x hx, h.2⟩
    · rw [if_neg hc]
      rw [List.pairwise_cons]
      exact ⟨rel_setLinkedAt h.1, ih h.2⟩

theorem szok_setLinkedAt {es : List (BumpyEntry (MultiEntry T))} {i : Nat} {nl : List Coord}
    (h : ∀ x ∈ es, x.size ≠ 0) : ∀ x ∈ setLinkedAt es i nl, x.size ≠ 0 := by
  intro x hx
  obtain ⟨y, hy, hyy⟩ := mem_setLinkedAt hx
  rcases hyy with rfl | rfl
  · exact h _ hy
  · rw [size_relink]
    exact h _ hy

/-- Point lookup after rewriting the link record of the (unique) entry
covering `i`: the looked-up entry is relinked exactly when the rewritten entry
covers the queried offset. -/
theorem find?_setLinkedAt {es : List (BumpyEntry (MultiEntry T))}
    (hpw : List.Pairwise (fun a b => overlaps a b = false) es)
    {i : Nat} {e : BumpyEntry (MultiEntry T)}
    (hfind : es.find? (fun x => covers x i) = some e) {nl : List Coord} (o : Nat) :
    (setLinkedAt es i nl).find? (fun x => covers x o) =
      if covers e o then some (relink e nl) else es.find? (fun x => covers x o) := by
  induction es with
  | nil => cases hfind
  | cons h t ih =>
    rw [List.pairwise_cons] at hpw
    rw [setLinkedAt]
    by_cases hh : covers h i = true
    · rw [List.find?_cons_of_pos (p := fun x => covers x i) _ hh] at hfind
      injection hfind with hfind
      subst hfind
      rw [if_pos hh]
      by_cases ho : covers h o = true
      · rw [if_pos ho]
        exact List.find?_cons_of_pos (p := fun x => covers x o) _
          (show covers (relink h nl) o = true from ho)
      · rw [if_neg ho]
        rw [List.find?_cons_of_neg (p := fun x => covers x o) _
          (show ¬ covers (relink h nl) o = true from ho)]
        rw [List.find?_cons_of_neg (p := fun x => covers x o) _ ho]
    · rw [List.find?_cons_of_neg (p := fun x => covers x i) _ hh] at hfind
      rw [if_neg hh]
      have hemem : e ∈ t := List.mem_of_find?_eq_some hfind
      by_cases ho : covers h o = true
      · have heo : covers e o = false := by
          cases hc : covers e o with
          | false => rfl
          | true =>
            have hov := overlaps_of_covers ho hc
            rw [hpw.1 e hemem] at hov
            cases hov
        rw [if_neg (by rw [heo]; exact Bool.false_ne_true)]
        rw [List.find?_cons_of_pos (p := fun x => covers x o) _ ho,
          List.find?_cons_of_pos (p := fun x => covers x o) _ ho]
      · rw [List.find?_cons_of_neg (p := fun x => covers x o) _ ho,
          List.find?_cons_of_neg (p := fun x => covers x o) _ ho]
        exact ih hpw.2 hfind

theorem get_entry_setVec_ne {mv : MultiVector T} {k b : String}
    {v' : BumpyVector (MultiEntry T)} (h : b ≠ k) (o : Nat) :
    (mv.setVec k v').get_entry b o = mv.get_entry b o := by
  unfold get_entry
  rw [getVec_setVec_ne h]

theorem VecOk_of_getVec {mv : MultiVector T} (hAll : AllOk mv) {k : String}
    {v : BumpyVector (MultiEntry T)} (hv : mv.getVec k = some v) : VecOk v :=
  hAll (k, v) (getVec_mem hv)

theorem AllOk_setVec {mv : MultiVector T} (hAll : AllOk mv) {k : String}
    {v' : BumpyVector (MultiEntry T)} (hok : VecOk v') : AllOk (mv.setVec k v') := by
  intro p hp
  rcases mem_setVec hp with h1 | h2
  · exact hAll p h1
  · rw [h2]; exact hok

theorem get_entry_of_covers {mv : MultiVector T} (hAll : AllOk mv) {k : String}
    {v : BumpyVector (MultiEntry T)} (hv : mv.getVec k = some v)
    {g : BumpyEntry (MultiEntry T)} (hg : g ∈ v.entries) {o : Nat}
    (hc : covers g o = true) : mv.get_entry k o = some g := by
  unfold get_entry
  rw [hv]
  exact get_eq_of_covers (VecOk_of_getVec hAll hv) hg hc

theorem stripLinks_setLinked {mv : MultiVector T} {k : String}
    {v : BumpyVector (MultiEntry T)} (hv : mv.getVec k = some v) {i : Nat}
    {nl : List Coord} :
    (mv.setVec k ⟨v.max_size, setLinkedAt v.entries i nl⟩).stripLinks = mv.stripLinks := by
  obtain ⟨l⟩ := mv
  induction l with
  | nil => rfl
  | cons p rest ih =>
    obtain ⟨k0, v0⟩ := p
    rw [setVec_cons]
    by_cases hk : k0 == k
    · rw [if_pos hk]
      rw [getVec_cons, if_pos hk] at hv
      injection hv with hv
      subst hv
      unfold stripLinks
      rw [MultiVector.mk.injEq, List.map_cons, List.map_cons, List.cons.injEq]
      refine ⟨?_, rfl⟩
      rw [Prod.mk.injEq]
      refine ⟨rfl, ?_⟩
      rw [BumpyVector.mk.injEq]
      exact ⟨rfl, map_relink_setLinkedAt⟩
    · simp only [Bool.not_eq_true] at hk
      rw [if_neg (by simp [hk])]
      rw [getVec_cons, if_neg (by simp [hk])] at hv
      have htail := ih hv
      unfold stripLinks at htail ⊢
      rw [MultiVector.mk.injEq] at htail ⊢
      rw [List.map_cons, List.map_cons, List.cons.injEq]
      exact ⟨rfl, htail⟩

theorem keys_stripLinks {mv : MultiVector T} :
    mv.stripLinks.vectors.map Prod.fst = mv.vectors.map Prod.fst := by
  unfold stripLinks
  rw [List.map_map]
  rfl

/-- The effect of rewriting one link record on every point lookup. -/
theorem get_entry_setLinked_step {mv : MultiVector T} (hAll : AllOk mv) {k : String}
    {v : BumpyVector (MultiEntry T)} (hv : mv.getVec k = some v) {i : Nat}
    {f0 : BumpyEntry (MultiEntry T)} (hget : v.get i = some f0) {nl : List Coord}
    (b : String) (o : Nat) :
    (mv.setVec k ⟨v.max_size, setLinkedAt v.entries i nl⟩).get_entry b o =
      if b = k ∧ covers f0 o = true then some (relink f0 nl)
      else mv.get_entry b o := by
  have hok := VecOk_of_getVec hAll hv
  by_cases hb : b = k
  · subst hb
    have hfind : v.entries.find? (fun x => covers x i) = some f0 := hget
    have h1 : (mv.setVec b ⟨v.max_size, setLinkedAt v.entries i nl⟩).get_entry b o =
        (setLinkedAt v.entries i nl).find? (fun x => covers x o) := by
      unfold get_entry
      rw [getVec_setVec_self hv]
      rfl
    rw [h1, find?_setLinkedAt hok.1 hfind o]
    have h2 : mv.get_entry b o = v.entries.find? (fun x => covers x o) := by
      unfold get_entry
      rw [hv]
      rfl
    rw [h2]
    by_cases hc : covers f0 o = true
    · rw [if_pos hc, if_pos ⟨rfl, hc⟩]
    · rw [if_neg hc, if_neg (fun hh => hc hh.2)]
  · rw [get_entry_setVec_ne hb, if_neg (fun hh => hb hh.1)]

/-- The rewrite loop of `unlink_entry`, on a well-formed registry in which
every coordinate of the list resolves to an entry stored at that exact
offset: it succeeds and relinks exactly the listed entries. -/
theorem unlink_loop_spec {nl : List Coord} :
    ∀ {cs : List Coord} {mv : MultiVector T}, AllOk mv →
      (∀ c ∈ cs, ∃ f, mv.get_entry c.1 c.2 = some f ∧ f.index = c.2) →
      ∃ mvF, MultiVector.unlink_loop nl mv cs = .ok mvF ∧
        (∀ b o f, mv.get_entry b o = some f →
          mvF.get_entry b o = some (if (b, f.index) ∈ cs then relink f nl else f)) ∧
        (∀ b o, mv.get_entry b o = none → mvF.get_entry b o = none) ∧
        AllOk mvF ∧ mvF.stripLinks = mv.stripLinks := by
  intro cs
  induction cs with
  | nil =>
    intro mv hAll hres
    refine ⟨mv, rfl, ?_, fun b o h => h, hAll, rfl⟩
    intro b o f hf
    rw [if_neg (by simp)]
    exact hf
  | cons c cs ih =>
    intro mv hAll hres
    obtain ⟨k, i⟩ := c
    obtain ⟨f0, hf0, hidx⟩ := hres (k, i) (List.mem_cons_self _ _)
    rw [get_entry_eq_some] at hf0
    obtain ⟨v, hv, hvget⟩ := hf0
    have hvOk := VecOk_of_getVec hAll hv
    have hstep := @get_entry_setLinked_step _ _ hAll _ _ hv _ _ hvget nl
    have hAll1 : AllOk (mv.setVec k ⟨v.max_size, setLinkedAt v.entries i nl⟩) :=
      AllOk_setVec hAll ⟨pw_setLinkedAt hvOk.1, szok_setLinkedAt hvOk.2⟩
    have hres1 : ∀ c' ∈ cs,
        ∃ f, (mv.setVec k ⟨v.max_size, setLinkedAt v.entries i nl⟩).get_entry c'.1 c'.2 =
          some f ∧ f.index = c'.2 := by
      intro c' hc'
      obtain ⟨f', hf', hidx'⟩ := hres c' (List.mem_cons_of_mem _ hc')
      rw [hstep c'.1 c'.2]
      by_cases hcnd : c'.1 = k ∧ covers f0 c'.2 = true
      · rw [if_pos hcnd]
        have hcase : mv.get_entry k c'.2 = some f0 :=
          get_entry_of_covers hAll hv (mem_of_get hvget) hcnd.2
        rw [hcnd.1] at hf'
        rw [hcase] at hf'
        injection hf' with hff
        refine ⟨relink f0 nl, rfl, ?_⟩
        rw [index_relink, hff]
        exact hidx'
      · rw [if_neg hcnd]
        exact ⟨f', hf', hidx'⟩
    obtain ⟨mvF, hloop, hsome, hnone, hAllF, hstrip⟩ := ih hAll1 hres1
    refine ⟨mvF, ?_, ?_, ?_, hAllF, ?_⟩
    · rw [MultiVector.unlink_loop]
      simp only [hv, hvget]
      exact hloop
    · intro b o f hf
      by_cases hcnd : b = k ∧ covers f0 o = true
      · have hf0o : mv.get_entry k o = some f0 :=
          get_entry_of_covers hAll hv (mem_of_get hvget) hcnd.2
        have hff : f = f0 := by
          rw [hcnd.1] at hf
          rw [hf0o] at hf
          injection hf with hf
          exact hf.symm
        subst hff
        have h1 := hstep b o
        rw [if_pos hcnd] at h1
        have h2 := hsome b o (relink f nl) h1
        rw [index_relink, relink_relink, ite_self] at h2
        rw [h2]
        have hmem : ((b, f.index) : Coord) ∈ ((k, i) :: cs : List Coord) := by
          have heq : ((b, f.index) : Coord) = (k, i) := by
            rw [Prod.mk.injEq]
            exact ⟨hcnd.1, hidx⟩
          rw [heq]
          exact List.mem_cons_self _ _
        rw [if_pos hmem]
      · have h1 := hstep b o
        rw [if_neg hcnd] at h1
        rw [hf] at h1
        have h2 := hsome b o f h1
        rw [h2]
        have hne : ((b, f.index) : Coord) ≠ (k, i) := by
          intro heq
          rw [Prod.mk.injEq] at heq
          apply hcnd
          refine ⟨heq.1, ?_⟩
          obtain ⟨va, hva, hvga⟩ := get_entry_eq_some.mp hf
          rw [heq.1, hv] at hva
          injection hva with hva
          subst hva
          have hfc : covers f f.index = true :=
            covers_self_index (hvOk.2 f (mem_of_get hvga))
          rw [heq.2] at hfc
          have : v.get i = some f := get_eq_of_covers hvOk (mem_of_get hvga) hfc
          rw [hvget] at this
          injection this with this
          rw [this]
          exact covers_of_get hvga
        by_cases hmem : ((b, f.index) : Coord) ∈ cs
        · rw [if_pos hmem, if_pos (List.mem_cons_of_mem _ hmem)]
        · rw [if_neg hmem, if_neg (by
            intro hh
            rcases List.mem_cons.mp hh with hh | hh
            · exact hne hh
            · exact hmem hh)]
    · intro b o hf
      apply hnone
      rw [hstep b o]
      by_cases hcnd : b = k ∧ covers f0 o = true
      · exfalso
        have hf0o : mv.get_entry k o = some f0 :=
          get_entry_of_covers hAll hv (mem_of_get hvget) hcnd.2
        rw [hcnd.1, hf0o] at hf
        cases hf
      · rw [if_neg hcnd]
        exact hf
    · rw [hstrip, stripLinks_setLinked hv]

/-- `unlink_entry` on an unknown vector fails without any state change. -/
theorem unlink_entry_no_vector {mv : MultiVector T} {vec : String} {i : Nat}
    (h : mv.getVec vec = none) :
    mv.unlink_entry vec i = .ok (mv, .error ("Couldn't find vector: " ++ vec)) := by
  rw [MultiVector.unlink_entry, h]

/-- `unlink_entry` at an uncovered offset fails without any state change. -/
theorem unlink_entry_no_entry {mv : MultiVector T} {vec : String} {i : Nat}
    {v : BumpyVector (MultiEntry T)} (hv : mv.getVec vec = some v)
    (h : v.get i = none) :
    mv.unlink_entry vec i = .ok (mv, .error "Couldn't find index in vector") := by
  rw [MultiVector.unlink_entry, hv]
  simp only [h]

/-- Full characterization of a successful `unlink_entry` on a well-formed
registry whose remaining link coordinates resolve: the unlinked entry becomes
a self-singleton, the listed siblings are rewritten to the filtered record,
and everything else — including all offsets, sizes and payloads — is kept. -/
theorem unlink_entry_spec {mv : MultiVector T} (hAll : AllOk mv) {vec : String}
    {i : Nat} {v : BumpyVector (MultiEntry T)} (hv : mv.getVec vec = some v)
    {e : BumpyEntry (MultiEntry T)} (hget : v.get i = some e)
    {nl : List Coord}
    (hnl : nl = e.entry.linked.filter (fun c => !(c.1 == vec && c.2 == e.index)))
    (hres : ∀ c ∈ nl, ∃ f, mv.get_entry c.1 c.2 = some f ∧ f.index = c.2) :
    ∃ mv', mv.unlink_entry vec i = .ok (mv', .ok ()) ∧
      (∀ b o f, mv.get_entry b o = some f →
        mv'.get_entry b o = some (
          if b = vec ∧ f.index = e.index then relink f [(vec, e.index)]
          else if (b, f.index) ∈ nl then relink f nl else f)) ∧
      (∀ b o, mv.get_entry b o = none → mv'.get_entry b o = none) ∧
      AllOk mv' ∧ mv'.stripLinks = mv.stripLinks := by
  have hvOk := VecOk_of_getVec hAll hv
  have hnotin : ((vec, e.index) : Coord) ∉ nl := by
    intro hmem
    rw [hnl, List.mem_filter] at hmem
    simp at hmem
  have hstep := @get_entry_setLinked_step _ _ hAll _ _ hv _ _ hget [(vec, e.index)]
  have hAll1 : AllOk (mv.setVec vec ⟨v.max_size, setLinkedAt v.entries i [(vec, e.index)]⟩) :=
    AllOk_setVec hAll ⟨pw_setLinkedAt hvOk.1, szok_setLinkedAt hvOk.2⟩
  have huniq : ∀ {b o f}, mv.get_entry b o = some f → b = vec → f.index = e.index →
      f = e := by
    intro b o f hf hb hfi
    obtain ⟨va, hva, hvga⟩ := get_entry_eq_some.mp hf
    rw [hb, hv] at hva
    injection hva with hva
    subst hva
    have hfc : covers f e.index = true := by
      rw [← hfi]
      exact covers_self_index (hvOk.2 f (mem_of_get hvga))
    have hec : covers e e.index = true := covers_self_index (hvOk.2 e (mem_of_get hget))
    exact covers_unique hvOk.1 (mem_of_get hvga) (mem_of_get hget) hfc hec
  have hres1 : ∀ c ∈ nl,
      ∃ f, (mv.setVec vec ⟨v.max_size,
        setLinkedAt v.entries i [(vec, e.index)]⟩).get_entry c.1 c.2 =
        some f ∧ f.index = c.2 := by
    intro c hc
    obtain ⟨f', hf', hidx'⟩ := hres c hc
    rw [hstep c.1 c.2]
    by_cases hcnd : c.1 = vec ∧ covers e c.2 = true
    · exfalso
      have hcase : mv.get_entry vec c.2 = some e :=
        get_entry_of_covers hAll hv (mem_of_get hget) hcnd.2
      rw [hcnd.1, hcase] at hf'
      injection hf' with hff
      apply hnotin
      have : c = ((vec, e.index) : Coord) := by
        rw [Prod.mk.injEq]
        refine ⟨hcnd.1, ?_⟩
        rw [← hidx', ← hff]
      rw [← this]
      exact hc
    · rw [if_neg hcnd]
      exact ⟨f', hf', hidx'⟩
  obtain ⟨mvF, hloop, hsomeL, hnoneL, hAllF, hstripF⟩ :=
    @unlink_loop_spec _ nl _ _ hAll1 hres1
  refine ⟨mvF, ?_, ?_, ?_, hAllF, ?_⟩
  · rw [MultiVector.unlink_entry]
    simp only [hv, hget]
    rw [← hnl]
    rw [hloop]
  · intro b o f hf
    by_cases hcnd : b = vec ∧ covers e o = true
    · have heo : mv.get_entry vec o = some e :=
        get_entry_of_covers hAll hv (mem_of_get hget) hcnd.2
      have hff : f = e := by
        rw [hcnd.1, heo] at hf
        injection hf with hf
        exact hf.symm
      subst hff
      have h1 := hstep b o
      rw [if_pos hcnd] at h1
      have h2 := hsomeL b o (relink f [(vec, f.index)]) h1
      rw [index_relink, relink_relink] at h2
      rw [if_neg (by
        intro hmem
        rw [hcnd.1] at hmem
        exact hnotin hmem)] at h2
      rw [h2]
      rw [if_pos ⟨hcnd.1, rfl⟩]
    · have h1 := hstep b o
      rw [if_neg hcnd, hf] at h1
      have h2 := hsomeL b o f h1
      rw [h2]
      rw [if_neg (show ¬(b = vec ∧ f.index = e.index) from by
        intro houter
        apply hcnd
        refine ⟨houter.1, ?_⟩
        have hff : f = e := huniq hf houter.1 houter.2
        obtain ⟨va, hva, hvga⟩ := get_entry_eq_some.mp hf
        rw [houter.1, hv] at hva
        injection hva with hva
        subst hva
        rw [← hff]
        exact covers_of_get hvga)]
  · intro b o hf
    apply hnoneL
    rw [hstep b o]
    by_cases hcnd : b = vec ∧ covers e o = true
    · exfalso
      have heo : mv.get_entry vec o = some e :=
        get_entry_of_covers hAll hv (mem_of_get hget) hcnd.2
      rw [hcnd.1, heo] at hf
      cases hf
    · rw [if_neg hcnd]
      exact hf
  · rw [hstripF, stripLinks_setLinked hv]

/-- The rewrite loop panics (the Rust `unwrap`) whenever some listed
coordinate is dangling. -/
theorem unlink_loop_panics {nl : List Coord} :
    ∀ {cs : List Coord} {mv : MultiVector T}, AllOk mv →
      (∃ c ∈ cs, mv.get_entry c.1 c.2 = none) →
      MultiVector.unlink_loop nl mv cs = .panicked := by
  intro cs
  induction cs with
  | nil =>
    intro mv _ hdang
    obtain ⟨c, hc, _⟩ := hdang
    cases hc
  | cons c cs ih =>
    intro mv hAll hdang
    obtain ⟨k, i⟩ := c
    rw [MultiVector.unlink_loop]
    cases hgv : mv.getVec k with
    | none => simp only [hgv]
    | some v =>
      cases hvg : v.get i with
      | none => simp only [hgv, hvg]
      | some f0 =>
        simp only [hgv, hvg]
        have hvOk := VecOk_of_getVec hAll hgv
        obtain ⟨c', hc', hdang'⟩ := hdang
        have hc'cs : c' ∈ cs := by
          rcases List.mem_cons.mp hc' with rfl | h2
          · exfalso
            have : mv.get_entry k i = some f0 := by
              unfold get_entry
              rw [hgv]
              exact hvg
            rw [this] at hdang'
            cases hdang'
          · exact h2
        apply ih
        · exact AllOk_setVec hAll ⟨pw_setLinkedAt hvOk.1, szok_setLinkedAt hvOk.2⟩
        refine ⟨c', hc'cs, ?_⟩
        rw [get_entry_setLinked_step hAll hgv hvg c'.1 c'.2]
        by_cases hcnd : c'.1 = k ∧ covers f0 c'.2 = true
        · exfalso
          have : mv.get_entry k c'.2 = some f0 :=
            get_entry_of_covers hAll hgv (mem_of_get hvg) hcnd.2
          rw [hcnd.1, this] at hdang'
          cases hdang'
        · rw [if_neg hcnd]
          exact hdang'

/-! ### Group removal -/

/-- The registry with every entry whose (vector, start offset) coordinate is
listed removed. -/
def removeCoords (mv : MultiVector T) (cs : List Coord) : MultiVector T :=
  ⟨mv.vectors.map (fun p =>
    (p.1, ⟨p.2.max_size, p.2.entries.filter (fun f => !decide ((p.1, f.index) ∈ cs))⟩))⟩

theorem removeCoords_nil {mv : MultiVector T} : removeCoords mv [] = mv := by
  obtain ⟨l⟩ := mv
  rw [MultiVector.mk.injEq]
  show l.map _ = l
  have hpt : ∀ p ∈ l, (p.1, (⟨p.2.max_size,
      p.2.entries.filter (fun f => !decide ((p.1, f.index) ∈ ([] : List Coord)))⟩ :
      BumpyVector (MultiEntry T))) = id p := by
    intro p _
    have : p.2.entries.filter (fun f => !decide ((p.1, f.index) ∈ ([] : List Coord))) =
        p.2.entries := by
      rw [List.filter_eq_self]
      intro a _
      simp
    rw [this]
    rfl
  rw [List.map_congr_left hpt, List.map_id]

theorem getVec_removeCoords {mv : MultiVector T} {cs : List Coord} {k : String} :
    (removeCoords mv cs).getVec k =
      (mv.getVec k).map (fun v =>
        ⟨v.max_size, v.entries.filter (fun f => !decide ((k, f.index) ∈ cs))⟩) := by
  obtain ⟨l⟩ := mv
  induction l with
  | nil => rfl
  | cons p rest ih =>
    obtain ⟨k0, v0⟩ := p
    show MultiVector.getVec ⟨(k0, _) :: _⟩ k = _
    rw [getVec_cons]
    by_cases h : k0 == k
    · have hk0 : k0 = k := by simpa using h
      subst hk0
      rw [getVec_cons]
      simp [h]
    · simp only [Bool.not_eq_true] at h
      rw [getVec_cons]
      simp only [h, Bool.false_eq_true, if_neg, not_false_iff]
      exact ih

theorem keys_removeCoords {mv : MultiVector T} {cs : List Coord} :
    (removeCoords mv cs).vectors.map Prod.fst = mv.vectors.map Prod.fst := by
  unfold removeCoords
  rw [List.map_map]
  rfl

theorem AllOk_removeCoords {mv : MultiVector T} (hAll : AllOk mv) {cs : List Coord} :
    AllOk (removeCoords mv cs) := by
  intro p hp
  unfold removeCoords at hp
  rw [List.mem_map] at hp
  obtain ⟨q, hq, rfl⟩ := hp
  obtain ⟨hpw, hsz⟩ := hAll q hq
  constructor
  · exact List.Pairwise.sublist (List.filter_sublist _) hpw
  · intro x hx
    exact hsz x (List.mem_of_mem_filter hx)

theorem nodup_removeCoords {mv : MultiVector T} (hnd : MultiVector.KeysNodup mv)
    {cs : List Coord} : MultiVector.KeysNodup (removeCoords mv cs) := by
  unfold MultiVector.KeysNodup at hnd ⊢
  rw [keys_removeCoords]
  exact hnd

/-- Composing single-coordinate removal with a batch removal. -/
theorem removeCoords_cons {mv : MultiVector T} {c : Coord} {cs : List Coord} :
    removeCoords (removeCoords mv [c]) cs = removeCoords mv (c :: cs) := by
  obtain ⟨l⟩ := mv
  unfold removeCoords
  rw [MultiVector.mk.injEq]
  rw [List.map_map]
  apply List.map_congr_left
  intro p _
  show (p.1, _) = (p.1, _)
  rw [Prod.mk.injEq]
  refine ⟨rfl, ?_⟩
  rw [BumpyVector.mk.injEq]
  refine ⟨rfl, ?_⟩
  show (p.2.entries.filter _).filter _ = _
  rw [List.filter_filter]
  apply List.filter_congr
  intro f _
  by_cases h1 : (p.1, f.index) = c
  · simp [h1]
  · by_cases h2 : ((p.1, f.index) : Coord) ∈ cs <;> simp [h1, h2]

/-- Under pairwise disjointness and nonzero sizes, removing the entry covering
`i` (whose start is exactly `i`) is filtering out the entries starting at `i`. -/
theorem eraseP_covers_eq_filter {es : List (BumpyEntry (MultiEntry T))}
    (hpw : List.Pairwise (fun a b => overlaps a b = false) es)
    (hsz : ∀ x ∈ es, x.size ≠ 0) {i : Nat} {f0 : BumpyEntry (MultiEntry T)}
    (hfind : es.find? (fun x => covers x i) = some f0) (hidx : f0.index = i) :
    es.eraseP (fun x => covers x i) = es.filter (fun f => !decide (f.index = i)) := by
  induction es with
  | nil => rfl
  | cons h t ih =>
    rw [List.pairwise_cons] at hpw
    by_cases hh : covers h i = true
    · rw [List.find?_cons_of_pos (p := fun x => covers x i) _ hh] at hfind
      injection hfind with hfind
      subst hfind
      rw [List.eraseP_cons_of_pos (p := fun x => covers x i) hh]
      rw [List.filter_cons_of_neg (by rw [hidx]; simp)]
      symm
      rw [List.filter_eq_self]
      intro g hg
      have hgi : g.index ≠ i := by
        intro hgi
        have hcg : covers g i = true := by
          rw [← hgi]
          exact covers_self_index (hsz g (List.mem_cons_of_mem _ hg))
        have := overlaps_of_covers hh hcg
        rw [hpw.1 g hg] at this
        cases this
      simp [hgi]
    · rw [List.find?_cons_of_neg (p := fun x => covers x i) _ hh] at hfind
      rw [List.eraseP_cons_of_neg (p := fun x => covers x i) hh]
      have hhi : h.index ≠ i := by
        intro hhi
        apply hh
        rw [← hhi]
        exact covers_self_index (hsz h (List.mem_cons_self _ _))
      rw [List.filter_cons_of_pos (by simp [hhi])]
      rw [ih hpw.2 (fun x hx => hsz x (List.mem_cons_of_mem _ hx)) hfind]

/-- Point lookup in a coordinate-filtered entry list. -/
theorem find?_filter_coords {es : List (BumpyEntry (MultiEntry T))}
    (hpw : List.Pairwise (fun a b => overlaps a b = false) es)
    {b : String} {cs : List Coord} (o : Nat) :
    (es.filter (fun g => !decide (((b, g.index) : Coord) ∈ cs))).find?
        (fun x => covers x o) =
      match es.find? (fun x => covers x o) with
      | none => none
      | some f => if ((b, f.index) : Coord) ∈ cs then none else some f := by
  induction es with
  | nil => rfl
  | cons h t ih =>
    rw [List.pairwise_cons] at hpw
    by_cases ho : covers h o = true
    · rw [List.find?_cons_of_pos (p := fun x => covers x o) _ ho]
      by_cases hmem : ((b, h.index) : Coord) ∈ cs
      · rw [List.filter_cons_of_neg (by simp [hmem])]
        show List.find? (fun x => covers x o)
            (t.filter (fun g => !decide (((b, g.index) : Coord) ∈ cs))) =
          if ((b, h.index) : Coord) ∈ cs then none else some h
        rw [if_pos hmem]
        rw [List.find?_eq_none]
        intro g hg
        have hgt := List.mem_of_mem_filter hg
        have : covers g o = false := by
          cases hc : covers g o with
          | false => rfl
          | true =>
            have := overlaps_of_covers ho hc
            rw [hpw.1 g hgt] at this
            cases this
        simp [this]
      · rw [List.filter_cons_of_pos (by simp [hmem])]
        rw [List.find?_cons_of_pos (p := fun x => covers x o) _ ho]
        show some h = if ((b, h.index) : Coord) ∈ cs then none else some h
        rw [if_neg hmem]
    · rw [List.find?_cons_of_neg (p := fun x => covers x o) _ ho]
      by_cases hmem : ((b, h.index) : Coord) ∈ cs
      · rw [List.filter_cons_of_neg (by simp [hmem])]
        exact ih hpw.2
      · rw [List.filter_cons_of_pos (by simp [hmem])]
        rw [List.find?_cons_of_neg (p := fun x => covers x o) _ ho]
        exact ih hpw.2

/-- Point lookup after a batch coordinate removal. -/
theorem get_entry_removeCoords {mv : MultiVector T} (hAll : AllOk mv)
    {cs : List Coord} (b : String) (o : Nat) :
    (removeCoords mv cs).get_entry b o =
      match mv.get_entry b o with
      | none => none
      | some f => if ((b, f.index) : Coord) ∈ cs then none else some f := by
  cases hv : mv.getVec b with
  | none =>
    unfold get_entry
    rw [getVec_removeCoords, hv]
    rfl
  | some v =>
    have hpw := (VecOk_of_getVec hAll hv).1
    unfold get_entry
    rw [getVec_removeCoords, hv, Option.map_some']
    show (v.entries.filter _).find? (fun x => covers x o) = _
    rw [find?_filter_coords hpw o]
    rfl

/-- The removal loop always produces one slot per coordinate. -/
theorem remove_loop_length :
    ∀ {cs : List Coord} {mv : MultiVector T},
      ((MultiVector.remove_loop mv cs).2).length = cs.length := by
  intro cs
  induction cs with
  | nil => intro mv; rfl
  | cons c cs ih =>
    intro mv
    obtain ⟨k, i⟩ := c
    rw [MultiVector.remove_loop]
    cases hv : mv.getVec k with
    | none =>
      simp only [hv, List.length_cons]
      rw [ih]
    | some v =>
      simp only [hv, List.length_cons]
      rw [ih]

/-- Writing back the index-filtered vector is the single-coordinate removal. -/
theorem setVec_filter_eq_removeCoords {mv : MultiVector T}
    (hnd : MultiVector.KeysNodup mv) {k : String} {v : BumpyVector (MultiEntry T)}
    (hv : mv.getVec k = some v) {i : Nat} :
    mv.setVec k ⟨v.max_size, v.entries.filter (fun f => !decide (f.index = i))⟩ =
      removeCoords mv [(k, i)] := by
  obtain ⟨l⟩ := mv
  induction l with
  | nil => rfl
  | cons p rest ihl =>
    obtain ⟨k0, v0⟩ := p
    unfold MultiVector.KeysNodup at hnd
    rw [List.map_cons, List.nodup_cons] at hnd
    rw [setVec_cons]
    by_cases hk : k0 == k
    · rw [if_pos hk]
      have hk0 : k0 = k := by simpa using hk
      rw [getVec_cons, if_pos hk] at hv
      injection hv with hv
      subst hv
      unfold removeCoords
      rw [MultiVector.mk.injEq, List.map_cons, List.cons.injEq]
      constructor
      · rw [Prod.mk.injEq]
        refine ⟨rfl, ?_⟩
        rw [BumpyVector.mk.injEq]
        refine ⟨rfl, ?_⟩
        apply List.filter_congr
        intro f _
        subst hk0
        by_cases hfi : f.index = i <;> simp [hfi]
      · symm
        apply (List.map_congr_left ?_).trans (List.map_id rest)
        intro q hq
        show (q.1, _) = id q
        have hq1 : q.1 ≠ k := by
          intro hqk
          apply hnd.1
          rw [hk0, ← hqk]
          exact List.mem_map.mpr ⟨q, hq, rfl⟩
        have hfil : q.2.entries.filter
            (fun f => !decide (((q.1, f.index) : Coord) ∈ ([(k, i)] : List Coord))) =
            q.2.entries := by
          rw [List.filter_eq_self]
          intro a _
          have hnm : ((q.1, a.index) : Coord) ∉ ([(k, i)] : List Coord) := by
            intro hmem
            rw [List.mem_singleton, Prod.mk.injEq] at hmem
            exact hq1 hmem.1
          rw [Bool.not_eq_true', decide_eq_false_iff_not]
          exact hnm
        rw [hfil]
        rfl
    · simp only [Bool.not_eq_true] at hk
      rw [if_neg (by simp [hk])]
      rw [getVec_cons, if_neg (by simp [hk])] at hv
      have hndr : MultiVector.KeysNodup (T := T) ⟨rest⟩ := hnd.2
      have htail := ihl hndr hv
      unfold removeCoords at htail ⊢
      rw [MultiVector.mk.injEq] at htail
      rw [MultiVector.mk.injEq, List.map_cons, List.cons.injEq]
      constructor
      · rw [Prod.mk.injEq]
        refine ⟨rfl, ?_⟩
        rw [BumpyVector.mk.injEq]
        refine ⟨rfl, ?_⟩
        have hall : ∀ a ∈ v0.entries,
            (!decide (((k0, a.index) : Coord) ∈ ([(k, i)] : List Coord))) = true := by
          intro a _
          have hnm : ((k0, a.index) : Coord) ∉ ([(k, i)] : List Coord) := by
            intro hmem
            rw [List.mem_singleton, Prod.mk.injEq] at hmem
            rw [hmem.1] at hk
            simp at hk
          rw [Bool.not_eq_true', decide_eq_false_iff_not]
          exact hnm
        rw [List.filter_eq_self.mpr hall]
      · exact htail

/-- Full behaviour of the removal loop on a well-formed registry when every
coordinate resolves to an entry stored at that exact offset and the
coordinates are distinct: it removes exactly the listed entries and returns
them, in order, as they stood before the call. -/
theorem remove_loop_spec :
    ∀ {cs : List Coord} {mv : MultiVector T}, AllOk mv → MultiVector.KeysNodup mv →
      cs.Nodup →
      (∀ c ∈ cs, ∃ f, mv.get_entry c.1 c.2 = some f ∧ f.index = c.2) →
      MultiVector.remove_loop mv cs =
        (removeCoords mv cs, cs.map (fun c => mv.get_entry c.1 c.2)) := by
  intro cs
  induction cs with
  | nil =>
    intro mv _ _ _ _
    rw [removeCoords_nil]
    rfl
  | cons c cs ih =>
    intro mv hAll hnd hcs hres
    obtain ⟨k, i⟩ := c
    obtain ⟨f0, hf0, hidx⟩ := hres (k, i) (List.mem_cons_self _ _)
    obtain ⟨v, hv, hvget⟩ := get_entry_eq_some.mp hf0
    have hvOk := VecOk_of_getVec hAll hv
    have hfind : v.entries.find? (fun x => covers x i) = some f0 := hvget
    have herase : v.entries.eraseP (fun x => covers x i) =
        v.entries.filter (fun f => !decide (f.index = i)) :=
      eraseP_covers_eq_filter hvOk.1 hvOk.2 hfind hidx
    have hone : mv.setVec k ⟨v.max_size, v.entries.filter (fun f => !decide (f.index = i))⟩ =
        removeCoords mv [(k, i)] := setVec_filter_eq_removeCoords hnd hv
    rw [MultiVector.remove_loop]
    simp only [hv]
    rw [BumpyVector.remove]
    simp only [hfind, herase, hone]
    have hAll1 : AllOk (removeCoords mv [(k, i)]) := AllOk_removeCoords hAll
    have hnd1 : MultiVector.KeysNodup (removeCoords mv [(k, i)]) := nodup_removeCoords hnd
    rw [List.nodup_cons] at hcs
    have hres1 : ∀ c' ∈ cs, ∃ f,
        (removeCoords mv [(k, i)]).get_entry c'.1 c'.2 = some f ∧ f.index = c'.2 := by
      intro c' hc'
      obtain ⟨f', hf', hidx'⟩ := hres c' (List.mem_cons_of_mem _ hc')
      have hnm : ((c'.1, f'.index) : Coord) ∉ ([(k, i)] : List Coord) := by
        intro hmem
        rw [List.mem_singleton, Prod.mk.injEq] at hmem
        apply hcs.1
        have hceq : c' = ((k, i) : Coord) := by
          rw [Prod.mk.injEq]
          exact ⟨hmem.1, by rw [← hidx']; exact hmem.2⟩
        rw [← hceq]
        exact hc'
      refine ⟨f', ?_, hidx'⟩
      rw [get_entry_removeCoords hAll c'.1 c'.2, hf']
      show (if ((c'.1, f'.index) : Coord) ∈ ([(k, i)] : List Coord) then none else some f') =
        some f'
      rw [if_neg hnm]
    rw [ih hAll1 hnd1 hcs.2 hres1]
    rw [removeCoords_cons]
    rw [Prod.mk.injEq]
    refine ⟨rfl, ?_⟩
    rw [List.map_cons]
    rw [List.cons.injEq]
    constructor
    · exact hf0.symm
    · apply List.map_congr_left
      intro c' hc'
      obtain ⟨f', hf', hidx'⟩ := hres c' (List.mem_cons_of_mem _ hc')
      have hnm : ((c'.1, f'.index) : Coord) ∉ ([(k, i)] : List Coord) := by
        intro hmem
        rw [List.mem_singleton, Prod.mk.injEq] at hmem
        apply hcs.1
        have hceq : c' = ((k, i) : Coord) := by
          rw [Prod.mk.injEq]
          exact ⟨hmem.1, by rw [← hidx']; exact hmem.2⟩
        rw [← hceq]
        exact hc'
      rw [get_entry_removeCoords hAll c'.1 c'.2, hf']
      show (if ((c'.1, f'.index) : Coord) ∈ ([(k, i)] : List Coord) then none else some f') =
        some f'
      rw [if_neg hnm]

theorem remove_entries_found {mv : MultiVector T} {vec : String} {i : Nat}
    {v : BumpyVector (MultiEntry T)} (hv : mv.getVec vec = some v)
    {e : BumpyEntry (MultiEntry T)} (hget : v.get i = some e) :
    mv.remove_entries vec i =
      ((MultiVector.remove_loop mv e.entry.linked).1,
        .ok (MultiVector.remove_loop mv e.entry.linked).2) := by
  rw [MultiVector.remove_entries]
  simp only [hv, hget]

theorem get_entries_found {mv : MultiVector T} {vec : String} {i : Nat}
    {v : BumpyVector (MultiEntry T)} (hv : mv.getVec vec = some v)
    {e : BumpyEntry (MultiEntry T)} (hget : v.get i = some e) :
    mv.get_entries vec i = .ok (e.entry.linked.map (fun c => mv.get_entry c.1 c.2)) := by
  rw [MultiVector.get_entries]
  simp only [hv, hget]

/-- `remove_entries` on a well-formed registry with a consistent, duplicate-free
link record: removes exactly the listed entries and returns them in order. -/
theorem remove_entries_spec {mv : MultiVector T} (hAll : AllOk mv)
    (hnd : MultiVector.KeysNodup mv) {vec : String} {i : Nat}
    {v : BumpyVector (MultiEntry T)} (hv : mv.getVec vec = some v)
    {e : BumpyEntry (MultiEntry T)} (hget : v.get i = some e)
    (hndL : e.entry.linked.Nodup)
    (hres : ∀ c ∈ e.entry.linked, ∃ f, mv.get_entry c.1 c.2 = some f ∧ f.index = c.2) :
    mv.remove_entries vec i =
      (removeCoords mv e.entry.linked,
        .ok (e.entry.linked.map (fun c => mv.get_entry c.1 c.2))) := by
  rw [remove_entries_found hv hget, remove_loop_spec hAll hnd hndL hres]

/-! ### The global invariant -/

end MultiVector

/-- `OptIs o p`: the option holds a value satisfying `p`. -/
def OptIs {α : Type} (o : Option α) (p : α → Prop) : Prop :=
  match o with
  | none => False
  | some a => p a

instance {α : Type} (o : Option α) (p : α → Prop) [∀ a, Decidable (p a)] :
    Decidable (OptIs o p) :=
  match o with
  | none => isFalse (fun h => h)
  | some a => inferInstanceAs (Decidable (p a))

theorem OptIs.to_exists {α : Type} {o : Option α} {p : α → Prop} (h : OptIs o p) :
    ∃ a, o = some a ∧ p a := by
  cases o with
  | none => cases h
  | some a => exact ⟨a, rfl, h⟩

namespace MultiVector

/-- Global well-formedness: distinct vector names; pairwise disjoint,
nonzero-size entries per vector; and every link record consistent — it
contains the entry's own coordinate, is duplicate-free, and each of its
coordinates resolves to an entry stored at exactly that offset carrying an
equal link record. -/
def WF (mv : MultiVector T) : Prop :=
  MultiVector.KeysNodup mv ∧ AllOk mv ∧
  ∀ p ∈ mv.vectors, ∀ e ∈ p.2.entries,
    ((p.1, e.index) : Coord) ∈ e.entry.linked ∧
    e.entry.linked.Nodup ∧
    ∀ c ∈ e.entry.linked,
      OptIs (mv.get_entry c.1 c.2)
        (fun f => f.index = c.2 ∧ f.entry.linked = e.entry.linked)

instance {mv : MultiVector T} : Decidable (MultiVector.KeysNodup mv) :=
  inferInstanceAs (Decidable ((mv.vectors.map Prod.fst).Nodup))

instance {v : BumpyVector (MultiEntry T)} : Decidable (VecOk v) :=
  inferInstanceAs (Decidable (List.Pairwise _ _ ∧ ∀ e ∈ v.entries, e.size ≠ 0))

instance {mv : MultiVector T} : Decidable (AllOk mv) :=
  inferInstanceAs (Decidable (∀ p ∈ mv.vectors, VecOk p.2))

instance {mv : MultiVector T} : Decidable (WF mv) := by
  unfold WF
  infer_instance

/-- The link conditions a well-formed registry grants for any stored entry. -/
theorem WF.link_res {mv : MultiVector T} (hwf : WF mv) {vec : String}
    {v : BumpyVector (MultiEntry T)} (hv : mv.getVec vec = some v)
    {e : BumpyEntry (MultiEntry T)} (he : e ∈ v.entries) :
    ((vec, e.index) : Coord) ∈ e.entry.linked ∧
    e.entry.linked.Nodup ∧
    ∀ c ∈ e.entry.linked,
      ∃ f, mv.get_entry c.1 c.2 = some f ∧ f.index = c.2 ∧
        f.entry.linked = e.entry.linked := by
  obtain ⟨h1, h2, h3⟩ := hwf.2.2 (vec, v) (getVec_mem hv) e he
  refine ⟨h1, h2, ?_⟩
  intro c hc
  obtain ⟨f, hf, hp⟩ := (h3 c hc).to_exists
  exact ⟨f, hf, hp⟩

theorem WF.resolves {mv : MultiVector T} (hwf : WF mv) {vec : String}
    {v : BumpyVector (MultiEntry T)} (hv : mv.getVec vec = some v)
    {e : BumpyEntry (MultiEntry T)} (he : e ∈ v.entries) :
    ∀ c ∈ e.entry.linked, ∃ f, mv.get_entry c.1 c.2 = some f ∧ f.index = c.2 := by
  intro c hc
  obtain ⟨f, hf, hp, _⟩ := (hwf.link_res hv he).2.2 c hc
  exact ⟨f, hf, hp⟩

theorem len_stripLinks {mv : MultiVector T} : mv.stripLinks.len = mv.len := by
  unfold MultiVector.len stripLinks
  rw [List.map_map]
  congr 1
  apply List.map_congr_left
  intro p _
  show ((⟨p.2.max_size, p.2.entries.map (fun e => relink e [])⟩ :
    BumpyVector (MultiEntry T))).len = p.2.len
  unfold BumpyVector.len
  rw [List.length_map]

/-- Rewriting the entry found at an offset with its own record is a no-op. -/
theorem setLinkedAt_self {es : List (BumpyEntry (MultiEntry T))} {i : Nat}
    {e : BumpyEntry (MultiEntry T)} (hfind : es.find? (fun x => covers x i) = some e) :
    setLinkedAt es i e.entry.linked = es := by
  induction es with
  | nil => rfl
  | cons h t ih =>
    rw [setLinkedAt]
    by_cases hh : covers h i = true
    · rw [if_pos hh]
      rw [List.find?_cons_of_pos (p := fun x => covers x i) _ hh] at hfind
      injection hfind with hfind
      subst hfind
      rfl
    · rw [if_neg hh]
      rw [List.find?_cons_of_neg (p := fun x => covers x i) _ hh] at hfind
      rw [ih hfind]

/-- Unlinking an entry whose record is already the self-singleton is a no-op
that succeeds. -/
theorem unlink_self_singleton {mv : MultiVector T} {vec : String} {i : Nat}
    {v : BumpyVector (MultiEntry T)} (hv : mv.getVec vec = some v)
    {e : BumpyEntry (MultiEntry T)} (hget : v.get i = some e)
    (hlink : e.entry.linked = [(vec, e.index)]) :
    mv.unlink_entry vec i = .ok (mv, .ok ()) := by
  rw [MultiVector.unlink_entry]
  simp only [hv, hget]
  have hfil : e.entry.linked.filter (fun c => !(c.1 == vec && c.2 == e.index)) = [] := by
    rw [hlink]
    rw [List.filter_cons_of_neg (by simp)]
    rfl
  have hset : setLinkedAt v.entries i [(vec, e.index)] = v.entries := by
    have := setLinkedAt_self (i := i) (e := e) hget
    rw [hlink] at this
    exact this
  rw [hfil, hset]
  show POr.ok ((mv.setVec vec ⟨v.max_size, v.entries⟩), Except.ok ()) = _
  have : mv.setVec vec ⟨v.max_size, v.entries⟩ = mv := setVec_eq_self hv
  rw [this]

end MultiVector

namespace MultiVector

theorem removeVecL_fst {l : List (String × BumpyVector (MultiEntry T))} {name : String} :
    (removeVecL (T := T) l name).1 = (l.find? (fun p => p.1 == name)).map (·.2) := by
  induction l with
  | nil => rfl
  | cons p rest ih =>
    obtain ⟨k0, v0⟩ := p
    rw [removeVecL]
    by_cases hk : k0 == name
    · rw [if_pos hk, List.find?_cons_of_pos
        (p := fun (q : String × BumpyVector (MultiEntry T)) => q.1 == name) _ hk]
      rfl
    · rw [if_neg hk, List.find?_cons_of_neg
        (p := fun (q : String × BumpyVector (MultiEntry T)) => q.1 == name) _ hk]
      exact ih

theorem getVec_removeVecL_ne {l : List (String × BumpyVector (MultiEntry T))}
    {name k : String} (h : k ≠ name) :
    getVec (T := T) ⟨(removeVecL l name).2⟩ k = getVec ⟨l⟩ k := by
  induction l with
  | nil => rfl
  | cons p rest ih =>
    obtain ⟨k0, v0⟩ := p
    rw [removeVecL]
    by_cases hk : k0 == name
    · rw [if_pos hk]
      have hk0 : k0 = name := by simpa using hk
      show getVec ⟨rest⟩ k = _
      rw [getVec_cons]
      rw [if_neg (by
        subst hk0
        simp only [beq_iff_eq]
        exact fun hh => h hh.symm)]
    · rw [if_neg hk]
      show getVec ⟨(k0, v0) :: (removeVecL rest name).2⟩ k = _
      rw [getVec_cons, getVec_cons]
      by_cases hk' : k0 == k
      · rw [if_pos hk', if_pos hk']
      · rw [if_neg hk', if_neg hk']
        exact ih

theorem not_exists_removeVecL {l : List (String × BumpyVector (MultiEntry T))}
    {name : String} (hnd : (l.map Prod.fst).Nodup) :
    vector_exists (T := T) ⟨(removeVecL l name).2⟩ name = false := by
  induction l with
  | nil => rfl
  | cons p rest ih =>
    obtain ⟨k0, v0⟩ := p
    rw [List.map_cons, List.nodup_cons] at hnd
    rw [removeVecL]
    by_cases hk : k0 == name
    · rw [if_pos hk]
      have hk0 : k0 = name := by simpa using hk
      show rest.any (fun p => p.1 == name) = false
      rw [List.any_eq_false]
      intro p hp
      simp only [beq_iff_eq]
      intro hpn
      apply hnd.1
      rw [hk0, ← hpn]
      exact List.mem_map.mpr ⟨p, hp, rfl⟩
    · rw [if_neg hk]
      show ((k0, v0) :: (removeVecL rest name).2).any (fun p => p.1 == name) = false
      rw [List.any_cons]
      rw [Bool.or_eq_false_iff]
      exact ⟨by simpa using hk, ih hnd.2⟩

end MultiVector

/-- C7: `destroy_vector` fails when the vector is unknown, fails when it still
holds entries (the registry unchanged in both failure cases), and otherwise
removes the vector from the registry and returns its capacity. -/
theorem C7_destroy_vector {T : Type} (mv : MultiVector T) (name : String) :
    (mv.getVec name = none →
      mv.destroy_vector name = (mv, .error "Vector with that name does not exist")) ∧
    (∀ v, mv.getVec name = some v → v.len ≠ 0 →
      mv.destroy_vector name = (mv, .error "Vector is not empty")) ∧
    (∀ v, mv.getVec name = some v → v.len = 0 → MultiVector.KeysNodup mv →
      ∃ mv', mv.destroy_vector name = (mv', .ok v.max_size) ∧
        mv'.vector_exists name = false ∧
        ∀ k, k ≠ name → mv'.getVec k = mv.getVec k) := by
  refine ⟨?_, ?_, ?_⟩
  · intro hnone
    rw [MultiVector.destroy_vector, hnone]
  · intro v hv hlen
    simp only [MultiVector.destroy_vector, hv]
    rw [if_pos hlen]
  · intro v hv hlen hnd
    have hfst : (MultiVector.removeVecL mv.vectors name).1 = some v := by
      rw [MultiVector.removeVecL_fst]
      exact hv
    rcases hpair : MultiVector.removeVecL mv.vectors name with ⟨r1, r2⟩
    rw [hpair] at hfst
    subst hfst
    refine ⟨⟨r2⟩, ?_, ?_, ?_⟩
    · simp only [MultiVector.destroy_vector, hv]
      rw [if_neg (fun hne => hne hlen)]
      simp only [hpair]
    · have := @MultiVector.not_exists_removeVecL _ mv.vectors name hnd
      rw [hpair] at this
      exact this
    · intro k hk
      have := @MultiVector.getVec_removeVecL_ne _ mv.vectors name _ hk
      rw [hpair] at this
      exact this

/-- C8: `create_vector` on an existing name fails with the registry — and in
particular the pre-existing vector's capacity and contents — unchanged; on a
fresh name it creates an empty vector of the given capacity under that name
and leaves every other name's binding unchanged. -/
theorem C8_create_vector {T : Type} (mv : MultiVector T) (name : String) (cap : Nat) :
    (mv.vector_exists name = true →
      mv.create_vector name cap = (mv, .error "Vector with that name already exists")) ∧
    (mv.vector_exists name = false →
      mv.create_vector name cap =
        (⟨mv.vectors ++ [(name, BumpyVector.new cap)]⟩, .ok ()) ∧
      (mv.create_vector name cap).1.getVec name = some (BumpyVector.new cap) ∧
      ∀ k, k ≠ name → (mv.create_vector name cap).1.getVec k = mv.getVec k) := by
  constructor
  · intro hex
    have hex' : mv.vectors.any (fun p => p.1 == name) = true := hex
    rw [MultiVector.create_vector, if_pos hex']
  · intro hex
    have hex' : mv.vectors.any (fun p => p.1 == name) = false := hex
    have hrun : mv.create_vector name cap =
        (⟨mv.vectors ++ [(name, BumpyVector.new cap)]⟩, .ok ()) := by
      rw [MultiVector.create_vector, if_neg (by rw [hex']; exact Bool.false_ne_true)]
    refine ⟨hrun, ?_, ?_⟩
    · rw [hrun]
      show ((mv.vectors ++ [(name, BumpyVector.new cap)]).find?
        (fun (q : String × BumpyVector (MultiEntry T)) => q.1 == name)).map
          (fun (q : String × BumpyVector (MultiEntry T)) => q.2) = _
      rw [find?_append_skip (fun p hp => by
        rw [List.any_eq_false] at hex'
        have := hex' p hp
        simpa using this)]
      rw [List.find?_cons_of_pos _ (by simp)]
      rfl
    · intro k hk
      rw [hrun]
      show ((mv.vectors ++ [(name, BumpyVector.new cap)]).find?
        (fun (q : String × BumpyVector (MultiEntry T)) => q.1 == k)).map
          (fun (q : String × BumpyVector (MultiEntry T)) => q.2) = mv.getVec k
      rw [List.find?_append]
      rw [List.find?_cons_of_neg
        (p := fun (q : String × BumpyVector (MultiEntry T)) => q.1 == k) _ (by
        simp only [beq_iff_eq]
        exact fun hh => hk hh.symm)]
      rw [List.find?_nil, Option.or_none]
      rfl

namespace MultiVector

theorem getVec_append_left {mv : MultiVector T} {k : String}
    {w : BumpyVector (MultiEntry T)} (h : mv.getVec k = some w)
    (rest : List (String × BumpyVector (MultiEntry T))) :
    getVec (T := T) ⟨mv.vectors ++ rest⟩ k = some w := by
  unfold getVec at h ⊢
  cases hf : mv.vectors.find? (fun p => p.1 == k) with
  | none => rw [hf] at h; cases h
  | some q =>
    rw [hf] at h
    rw [find?_append_left hf]
    exact h

theorem removeVecL_sublist {l : List (String × BumpyVector (MultiEntry T))}
    {name : String} : ((removeVecL (T := T) l name).2).Sublist l := by
  induction l with
  | nil => exact List.Sublist.refl _
  | cons p rest ih =>
    obtain ⟨k0, v0⟩ := p
    rw [removeVecL]
    by_cases hk : k0 == name
    · rw [if_pos hk]
      exact List.sublist_cons_self _ _
    · rw [if_neg hk]
      exact List.Sublist.cons₂ _ ih

theorem mem_of_mem_appFor {apps : List (String × BumpyEntry (MultiEntry T))}
    {k : String} {b : BumpyEntry (MultiEntry T)} (h : b ∈ appFor apps k) :
    (k, b) ∈ apps := by
  unfold appFor at h
  rw [List.mem_map] at h
  obtain ⟨q, hq, rfl⟩ := h
  rw [List.mem_filter] at hq
  have : q.1 = k := by simpa using hq.2
  have hqe : q = (k, q.2) := by
    rw [Prod.mk.injEq]
    exact ⟨this, rfl⟩
  rw [← hqe]
  exact hq.1

/-- The coordinates of an invariant-respecting insertion list are distinct. -/
theorem appsCoords_nodup {mv : MultiVector T}
    {apps : List (String × BumpyEntry (MultiEntry T))} (hinv : InsInv mv apps) :
    (appsCoords apps).Nodup := by
  induction apps with
  | nil => exact List.nodup_nil
  | cons p apps' ih =>
    obtain ⟨k, b⟩ := p
    show ((k, b.index) :: appsCoords apps').Nodup
    rw [List.nodup_cons]
    refine ⟨?_, ih hinv.of_cons⟩
    intro hmem
    unfold appsCoords at hmem
    rw [List.mem_map] at hmem
    obtain ⟨q, hq, heq⟩ := hmem
    obtain ⟨k', b'⟩ := q
    have hk' : k' = k := congrArg Prod.fst heq
    have hbi : b'.index = b.index := congrArg Prod.snd heq
    rw [hk'] at hq
    have hpw := hinv.pw k
    rw [appFor_cons, if_pos (by simp)] at hpw
    have hpw' : List.Pairwise (fun a b => overlaps a b = false) (b :: appFor apps' k) := hpw
    rw [List.pairwise_cons] at hpw'
    have hb' : b' ∈ appFor apps' k := mem_appFor_of_mem hq
    have hrel := hpw'.1 b' hb'
    have hszb : b.size ≠ 0 := hinv.szpos (k, b) (List.mem_cons_self _ _)
    have hszb' : b'.size ≠ 0 := hinv.szpos (k, b') (List.mem_cons_of_mem _ hq)
    have hcb : covers b b.index = true := covers_self_index hszb
    have hcb' : covers b' b.index = true := by
      rw [← hbi]
      exact covers_self_index hszb'
    rw [overlaps_of_covers hcb hcb'] at hrel
    cases hrel

/-- Lookups that succeed in the base registry are unchanged by augmentation. -/
theorem get_entry_augment_old {mv : MultiVector T}
    {apps : List (String × BumpyEntry (MultiEntry T))} {b : String} {o : Nat}
    {f : BumpyEntry (MultiEntry T)} (h : mv.get_entry b o = some f) :
    (augment mv apps).get_entry b o = some f := by
  obtain ⟨w, hw, hwget⟩ := get_entry_eq_some.mp h
  rw [get_entry_eq_some]
  refine ⟨⟨w.max_size, w.entries ++ appFor apps b⟩, ?_, ?_⟩
  · rw [getVec_augment, hw]
    rfl
  · show (w.entries ++ appFor apps b).find? (fun x => covers x o) = some f
    exact find?_append_left hwget

/-- In a well-formed-enough registry, association-list membership of an entry
determines the point lookup at its start offset. -/
theorem mem_to_get_entry {mv : MultiVector T} (hnd : MultiVector.KeysNodup mv)
    (hAll : AllOk mv) {k : String} {v : BumpyVector (MultiEntry T)}
    (hv : (k, v) ∈ mv.vectors) {e : BumpyEntry (MultiEntry T)} (he : e ∈ v.entries) :
    mv.get_entry k e.index = some e := by
  have hgv : mv.getVec k = some v := getVec_of_mem hnd hv
  exact get_entry_of_covers hAll hgv he
    (covers_self_index ((hAll (k, v) hv).2 e he))

/-- Every raw insertion produced by a group insert carries the shared record. -/
theorem apps_linked {entries : List (String × T × Nat × Nat)} {refs : List Coord}
    {k : String} {b : BumpyEntry (MultiEntry T)}
    (h : (k, b) ∈ entries.map (entryOf refs)) : b.entry.linked = refs := by
  rw [List.mem_map] at h
  obtain ⟨it, _, heq⟩ := h
  rw [Prod.mk.injEq] at heq
  rw [← heq.2]
  rfl

theorem apps_self_coord {entries : List (String × T × Nat × Nat)} {refs : List Coord}
    {k : String} {b : BumpyEntry (MultiEntry T)}
    (h : (k, b) ∈ entries.map (entryOf refs)) :
    ((k, b.index) : Coord) ∈ entries.map (fun it => (it.1, it.2.2.1)) := by
  rw [List.mem_map] at h
  obtain ⟨it, hit, heq⟩ := h
  rw [Prod.mk.injEq] at heq
  rw [List.mem_map]
  refine ⟨it, hit, ?_⟩
  rw [Prod.mk.injEq]
  exact ⟨heq.1, by rw [← heq.2]; rfl⟩

/-! ### Preservation of the global invariant -/

theorem WF_new : WF (MultiVector.new (T := T)) :=
  ⟨List.nodup_nil, fun p hp => absurd hp (List.not_mem_nil p),
    fun p hp => absurd hp (List.not_mem_nil p)⟩

theorem WF_create {mv mv' : MultiVector T} (hwf : WF mv) {name : String} {cap : Nat}
    (h : mv.create_vector name cap = (mv', .ok ())) : WF mv' := by
  by_cases hex : mv.vectors.any (fun p => p.1 == name) = true
  · rw [MultiVector.create_vector, if_pos hex] at h
    rw [Prod.mk.injEq] at h
    exact absurd h.2 (by simp)
  · rw [MultiVector.create_vector, if_neg hex] at h
    rw [Prod.mk.injEq] at h
    obtain ⟨hmv, _⟩ := h
    subst hmv
    rw [Bool.not_eq_true, List.any_eq_false] at hex
    have hnotkey : ∀ p ∈ mv.vectors, p.1 ≠ name := by
      intro p hp
      have := hex p hp
      simpa using this
    refine ⟨?_, ?_, ?_⟩
    · show ((mv.vectors ++ [(name, BumpyVector.new cap)]).map Prod.fst).Nodup
      rw [List.map_append, List.nodup_append]
      refine ⟨hwf.1, List.nodup_singleton _, ?_⟩
      intro a ha hb
      rw [List.map_singleton, List.mem_singleton] at hb
      rw [List.mem_map] at ha
      obtain ⟨p, hp, rfl⟩ := ha
      exact hnotkey p hp hb
    · intro p hp
      rcases List.mem_append.mp hp with hp | hp
      · exact hwf.2.1 p hp
      · rw [List.mem_singleton] at hp
        subst hp
        exact ⟨List.Pairwise.nil, fun e he => absurd he (List.not_mem_nil e)⟩
    · intro p hp e he
      rcases List.mem_append.mp hp with hp | hp
      · obtain ⟨h1, h2, h3⟩ := hwf.2.2 p hp e he
        refine ⟨h1, h2, ?_⟩
        intro c hc
        obtain ⟨f, hf, hpf⟩ := (h3 c hc).to_exists
        obtain ⟨w, hw, hwget⟩ := get_entry_eq_some.mp hf
        have : MultiVector.get_entry (T := T) ⟨mv.vectors ++ [(name, BumpyVector.new cap)]⟩
            c.1 c.2 = some f := by
          rw [get_entry_eq_some]
          exact ⟨w, getVec_append_left hw _, hwget⟩
        rw [this]
        exact hpf
      · rw [List.mem_singleton] at hp
        subst hp
        exact absurd he (List.not_mem_nil e)

theorem WF_destroy {mv mv' : MultiVector T} (hwf : WF mv) {name : String} {n : Nat}
    (h : mv.destroy_vector name = (mv', .ok n)) : WF mv' := by
  cases hv : mv.getVec name with
  | none =>
    rw [MultiVector.destroy_vector, hv] at h
    rw [Prod.mk.injEq] at h
    exact absurd h.2 (by simp)
  | some v =>
    simp only [MultiVector.destroy_vector, hv] at h
    by_cases hlen : v.len ≠ 0
    · rw [if_pos hlen] at h
      rw [Prod.mk.injEq] at h
      exact absurd h.2 (by simp)
    · rw [if_neg hlen] at h
      rw [Classical.not_not] at hlen
      have hempty : v.entries = [] := by
        unfold BumpyVector.len at hlen
        exact List.length_eq_zero.mp hlen
      have hfst : (MultiVector.removeVecL mv.vectors name).1 = some v := by
        rw [MultiVector.removeVecL_fst]
        exact hv
      rcases hpair : MultiVector.removeVecL mv.vectors name with ⟨r1, r2⟩
      rw [hpair] at hfst h
      subst hfst
      rw [Prod.mk.injEq] at h
      obtain ⟨hmv, _⟩ := h
      rw [← hmv]
      have hsub : r2.Sublist mv.vectors := by
        have := @removeVecL_sublist _ mv.vectors name
        rw [hpair] at this
        exact this
      refine ⟨?_, ?_, ?_⟩
      · show (r2.map Prod.fst).Nodup
        exact (hsub.map Prod.fst).nodup hwf.1
      · intro p hp
        exact hwf.2.1 p (hsub.mem hp)
      · intro p hp e he
        obtain ⟨h1, h2, h3⟩ := hwf.2.2 p (hsub.mem hp) e he
        refine ⟨h1, h2, ?_⟩
        intro c hc
        obtain ⟨f, hf, hpf⟩ := (h3 c hc).to_exists
        obtain ⟨w, hw, hwget⟩ := get_entry_eq_some.mp hf
        have hcname : c.1 ≠ name := by
          intro hc1
          rw [hc1, hv] at hw
          injection hw with hw
          subst hw
          unfold BumpyVector.get at hwget
          rw [hempty] at hwget
          cases hwget
        have : MultiVector.get_entry (T := T) ⟨r2⟩ c.1 c.2 = some f := by
          rw [get_entry_eq_some]
          refine ⟨w, ?_, hwget⟩
          have := @getVec_removeVecL_ne _ mv.vectors name _ hcname
          rw [hpair] at this
          rw [this]
          exact hw
        rw [this]
        exact hpf

theorem WF_insert {mv mv1 : MultiVector T} (hwf : WF mv)
    {entries : List (String × T × Nat × Nat)}
    (h : mv.insert_entries entries = (mv1, .ok ())) : WF mv1 := by
  obtain ⟨hmv1, hinv⟩ := (insert_entries_spec hwf.1).2 mv1 h
  subst hmv1
  have hK : MultiVector.KeysNodup
      (augment mv (entries.map (entryOf (entries.map fun it => (it.1, it.2.2.1))))) := by
    unfold MultiVector.KeysNodup
    rw [keys_augment]
    exact hwf.1
  have hrefsnodup : (entries.map fun it => (it.1, it.2.2.1)).Nodup := by
    have := appsCoords_nodup hinv
    unfold appsCoords at this
    rw [List.map_map] at this
    exact this
  refine ⟨hK, ?_, ?_⟩
  · intro p hp
    unfold augment at hp
    rw [List.mem_map] at hp
    obtain ⟨⟨k, v⟩, hq, rfl⟩ := hp
    have hgv : mv.getVec k = some v := getVec_of_mem hwf.1 hq
    have hvOk := hwf.2.1 (k, v) hq
    constructor
    · show List.Pairwise _ (v.entries ++ appFor _ k)
      rw [List.pairwise_append]
      refine ⟨hvOk.1, hinv.pw k, ?_⟩
      intro a ha b hb
      exact hinv.noov (k, b) (mem_of_mem_appFor hb) v hgv a ha
    · intro x hx
      rcases List.mem_append.mp hx with hx | hx
      · exact hvOk.2 x hx
      · exact hinv.szpos (k, x) (mem_of_mem_appFor hx)
  · intro p hp e he
    unfold augment at hp
    rw [List.mem_map] at hp
    obtain ⟨⟨k, v⟩, hq, rfl⟩ := hp
    have hgv : mv.getVec k = some v := getVec_of_mem hwf.1 hq
    rcases List.mem_append.mp he with he | he
    · -- a pre-existing entry: its record and its targets are untouched
      obtain ⟨h1, h2, h3⟩ := hwf.2.2 (k, v) hq e he
      refine ⟨h1, h2, ?_⟩
      intro c hc
      obtain ⟨f, hf, hpf⟩ := (h3 c hc).to_exists
      rw [get_entry_augment_old hf]
      exact hpf
    · -- a freshly inserted entry: its record is the shared coordinate list
      have hpair := mem_of_mem_appFor he
      have hlink : e.entry.linked = entries.map fun it => (it.1, it.2.2.1) :=
        apps_linked hpair
      refine ⟨?_, ?_, ?_⟩
      · rw [hlink]
        exact apps_self_coord hpair
      · rw [hlink]
        exact hrefsnodup
      · intro c hc
        rw [hlink] at hc
        rw [List.mem_map] at hc
        obtain ⟨it, hit, rfl⟩ := hc
        have hpair' : (it.1, (⟨⟨it.1, it.2.1, entries.map fun j => (j.1, j.2.2.1)⟩,
            it.2.2.1, it.2.2.2⟩ : BumpyEntry (MultiEntry T))) ∈
            entries.map (entryOf (entries.map fun j => (j.1, j.2.2.1))) :=
          List.mem_map_of_mem _ hit
        have hsz := hinv.szpos _ hpair'
        have hcov := covers_self_index hsz
        have := get_entry_augment hinv hpair' hcov
        rw [this]
        exact ⟨rfl, by rw [hlink]⟩

/-- Membership in a self-coordinate-filtered record. -/
theorem mem_filter_coord {L : List Coord} {vec : String} {j : Nat} {c : Coord} :
    c ∈ L.filter (fun c => !(c.1 == vec && c.2 == j)) ↔
      c ∈ L ∧ ¬(c.1 = vec ∧ c.2 = j) := by
  rw [List.mem_filter, and_congr_right_iff]
  intro _
  rw [Bool.not_eq_true']
  constructor
  · intro h2 hcc
    rw [hcc.1, hcc.2] at h2
    simp at h2
  · intro h2
    by_cases hc1 : c.1 = vec
    · by_cases hc2 : c.2 = j
      · exact absurd ⟨hc1, hc2⟩ h2
      · simp [hc2]
    · simp [hc1]

/-- Filtering one present coordinate out of a duplicate-free record drops
its length by exactly one. -/
theorem length_filter_coord {L : List Coord} (hnd : L.Nodup) {x : String} {y : Nat}
    (ha : ((x, y) : Coord) ∈ L) :
    (L.filter (fun c => !(c.1 == x && c.2 == y))).length = L.length - 1 := by
  induction L with
  | nil => cases ha
  | cons b L ih =>
    rw [List.nodup_cons] at hnd
    by_cases hb : b = ((x, y) : Coord)
    · rw [List.filter_cons_of_neg (p := fun c : Coord => !(c.1 == x && c.2 == y))
        (show ¬((!(b.1 == x && b.2 == y)) = true) from by
          rw [hb]
          simp)]
      rw [List.filter_eq_self.mpr]
      · simp
      · intro c hc
        have hcb : c ≠ ((x, y) : Coord) := by
          intro hcc
          apply hnd.1
          rw [← hb] at hcc
          exact hcc ▸ hc
        show (!(c.1 == x && c.2 == y)) = true
        by_cases h1 : c.1 = x
        · by_cases h2 : c.2 = y
          · exact absurd (Prod.ext h1 h2) hcb
          · simp [h2]
        · simp [h1]
    · have ha' : ((x, y) : Coord) ∈ L := by
        cases List.mem_cons.mp ha with
        | inl hxy => exact absurd hxy.symm hb
        | inr hmem => exact hmem
      rw [List.filter_cons_of_pos (p := fun c : Coord => !(c.1 == x && c.2 == y))
        (show (!(b.1 == x && b.2 == y)) = true from by
        by_cases h1 : b.1 = x
        · by_cases h2 : b.2 = y
          · exact absurd (Prod.ext h1 h2) hb
          · simp [h2]
        · simp [h1])]
      simp only [List.length_cons]
      rw [ih hnd.2 ha']
      have hL : 0 < L.length := List.length_pos.mpr (List.ne_nil_of_mem ha')
      omega

/-- Two successful lookups in the same well-formed vector with equal start
offsets find the same entry. -/
theorem get_entry_same_index {mv : MultiVector T} (hAll : AllOk mv) {k : String}
    {o1 o2 : Nat} {f g : BumpyEntry (MultiEntry T)}
    (hf : mv.get_entry k o1 = some f) (hg : mv.get_entry k o2 = some g)
    (hidx : f.index = g.index) : f = g := by
  obtain ⟨w, hw, hwf⟩ := get_entry_eq_some.mp hf
  obtain ⟨w', hw', hwg⟩ := get_entry_eq_some.mp hg
  rw [hw] at hw'
  injection hw' with hw'
  subst hw'
  have hvOk := VecOk_of_getVec hAll hw
  have hcf : covers f f.index = true := covers_self_index (hvOk.2 f (mem_of_get hwf))
  have hcg : covers g f.index = true := by
    rw [hidx]
    exact covers_self_index (hvOk.2 g (mem_of_get hwg))
  exact covers_unique hvOk.1 (mem_of_get hwf) (mem_of_get hwg) hcf hcg

theorem WF_unlink {mv mvu : MultiVector T} (hwf : WF mv) {vec : String} {i : Nat}
    (h : mv.unlink_entry vec i = .ok (mvu, .ok ())) : WF mvu := by
  cases hv : mv.getVec vec with
  | none =>
    rw [unlink_entry_no_vector hv] at h
    injection h with hp
    rw [Prod.mk.injEq] at hp
    exact absurd hp.2 (by simp)
  | some v =>
    cases hget : v.get i with
    | none =>
      rw [unlink_entry_no_entry hv hget] at h
      injection h with hp
      rw [Prod.mk.injEq] at hp
      exact absurd hp.2 (by simp)
    | some e =>
      have hvOk := VecOk_of_getVec hwf.2.1 hv
      have hER := hwf.link_res hv (mem_of_get hget)
      have hres' : ∀ c ∈ e.entry.linked.filter (fun c => !(c.1 == vec && c.2 == e.index)),
          ∃ f, mv.get_entry c.1 c.2 = some f ∧ f.index = c.2 :=
        fun c hc => hwf.resolves hv (mem_of_get hget) c (List.mem_of_mem_filter hc)
      obtain ⟨mv', hrun, hsome, hnone, hAll', hstrip⟩ :=
        unlink_entry_spec hwf.2.1 hv hget rfl hres'
      rw [hrun] at h
      injection h with hp
      rw [Prod.mk.injEq] at hp
      obtain ⟨heq, _⟩ := hp
      subst heq
      have hK' : MultiVector.KeysNodup mv' := by
        unfold MultiVector.KeysNodup
        rw [← @keys_stripLinks _ mv', hstrip, keys_stripLinks]
        exact hwf.1
      have hback : ∀ b o g, mv'.get_entry b o = some g →
          ∃ f, mv.get_entry b o = some f ∧
            g = (if b = vec ∧ f.index = e.index then relink f [(vec, e.index)]
              else if ((b, f.index) : Coord) ∈
                  e.entry.linked.filter (fun c => !(c.1 == vec && c.2 == e.index)) then
                relink f (e.entry.linked.filter (fun c => !(c.1 == vec && c.2 == e.index)))
              else f) := by
        intro b o g hg
        cases hbo : mv.get_entry b o with
        | none =>
          rw [hnone b o hbo] at hg
          cases hg
        | some f =>
          have hh := hsome b o f hbo
          rw [hg] at hh
          injection hh with hh
          exact ⟨f, hbo ▸ rfl, hh⟩
      have heget : mv.get_entry vec e.index = some e :=
        get_entry_of_covers hwf.2.1 hv (mem_of_get hget)
          (covers_self_index (hvOk.2 e (mem_of_get hget)))
      refine ⟨hK', hAll', ?_⟩
      intro p hp e' he'
      have hske : mv'.get_entry p.1 e'.index = some e' := mem_to_get_entry hK' hAll' hp he'
      obtain ⟨f, hf, htrans⟩ := hback p.1 e'.index e' hske
      by_cases hc1 : p.1 = vec ∧ f.index = e.index
      · -- the unlinked entry itself
        rw [if_pos hc1] at htrans
        have hfe : f = e := by
          have hf' : mv.get_entry vec e'.index = some f := by
            rw [← hc1.1]
            exact hf
          exact get_entry_same_index hwf.2.1 hf' heget hc1.2
        subst hfe
        refine ⟨?_, ?_, ?_⟩
        · rw [htrans, hc1.1]
          show ((vec, f.index) : Coord) ∈ [(vec, f.index)]
          exact List.mem_singleton.mpr rfl
        · rw [htrans]
          exact List.nodup_singleton _
        · intro c hc
          rw [htrans] at hc
          have hc' : c ∈ [((vec, f.index) : Coord)] := hc
          rw [List.mem_singleton] at hc'
          subst hc'
          have hh := hsome vec f.index f heget
          rw [if_pos ⟨rfl, rfl⟩] at hh
          show OptIs (mv'.get_entry vec f.index) _
          rw [hh]
          exact ⟨rfl, by rw [htrans]⟩
      · rw [if_neg hc1] at htrans
        by_cases hc2 : ((p.1, f.index) : Coord) ∈
            e.entry.linked.filter (fun c => !(c.1 == vec && c.2 == e.index))
        · -- a rewritten sibling
          rw [if_pos hc2] at htrans
          refine ⟨?_, ?_, ?_⟩
          · rw [htrans]
            exact hc2
          · rw [htrans]
            exact hER.2.1.filter _
          · intro c hc
            rw [htrans] at hc
            have hcL := (mem_filter_coord.mp hc).1
            have hcne := (mem_filter_coord.mp hc).2
            obtain ⟨ht, hht, htidx, htlink⟩ := hER.2.2 c hcL
            have hh := hsome c.1 c.2 ht hht
            rw [if_neg (show ¬(c.1 = vec ∧ ht.index = e.index) from by
              intro hcc
              exact hcne ⟨hcc.1, by rw [← htidx]; exact hcc.2⟩)] at hh
            have hcc : ((c.1, ht.index) : Coord) = c := by rw [htidx]
            have hcf : c ∈ e.entry.linked.filter
                (fun c => !(c.1 == vec && c.2 == e.index)) := hc
            rw [hcc, if_pos hcf] at hh
            rw [hh]
            exact ⟨htidx, by rw [htrans]; rfl⟩
        · -- an unrelated entry: unchanged, and its targets unchanged
          rw [if_neg hc2] at htrans
          subst htrans
          obtain ⟨w, hw, hwget⟩ := get_entry_eq_some.mp hf
          have hFR := hwf.link_res hw (mem_of_get hwget)
          refine ⟨hFR.1, hFR.2.1, ?_⟩
          intro c hc
          obtain ⟨ht, hht, htidx, htlink⟩ := hFR.2.2 c hc
          -- show the target is untouched
          have hnc1 : ¬(c.1 = vec ∧ ht.index = e.index) := by
            intro hcc
            have hte : ht = e := by
              have hht' : mv.get_entry vec c.2 = some ht := by
                rw [← hcc.1]
                exact hht
              exact get_entry_same_index hwf.2.1 hht' heget hcc.2
            have hMe : e'.entry.linked = e.entry.linked := by
              rw [← htlink, hte]
            have hself : ((p.1, e'.index) : Coord) ∈ e.entry.linked := by
              rw [← hMe]
              exact hFR.1
            by_cases hdq : ((p.1, e'.index) : Coord) = ((vec, e.index) : Coord)
            · rw [Prod.mk.injEq] at hdq
              exact hc1 ⟨hdq.1, hdq.2⟩
            · apply hc2
              rw [mem_filter_coord]
              refine ⟨hself, ?_⟩
              intro hdd
              apply hdq
              rw [Prod.mk.injEq]
              exact ⟨hdd.1, hdd.2⟩
          have hnc2 : ¬(((c.1, ht.index) : Coord) ∈
              e.entry.linked.filter (fun c => !(c.1 == vec && c.2 == e.index))) := by
            intro hcc
            have hcL : ((c.1, ht.index) : Coord) ∈ e.entry.linked :=
              (mem_filter_coord.mp hcc).1
            -- this coordinate is c itself
            have hcc' : ((c.1, ht.index) : Coord) = c := by rw [htidx]
            rw [hcc'] at hcL
            -- from the unlinked entry's record, c resolves to a record equal to e's
            obtain ⟨ht2, hht2, htidx2, htlink2⟩ := hER.2.2 c hcL
            rw [hht] at hht2
            injection hht2 with hht2
            have hMe : e'.entry.linked = e.entry.linked := by
              rw [← htlink, hht2, htlink2]
            have hself : ((p.1, e'.index) : Coord) ∈ e.entry.linked := by
              rw [← hMe]
              exact hFR.1
            by_cases hdq : ((p.1, e'.index) : Coord) = ((vec, e.index) : Coord)
            · rw [Prod.mk.injEq] at hdq
              exact hc1 ⟨hdq.1, hdq.2⟩
            · apply hc2
              rw [mem_filter_coord]
              refine ⟨hself, ?_⟩
              intro hdd
              apply hdq
              rw [Prod.mk.injEq]
              exact ⟨hdd.1, hdd.2⟩
          have hh := hsome c.1 c.2 ht hht
          rw [if_neg hnc1, if_neg hnc2] at hh
          rw [hh]
          exact ⟨htidx, htlink⟩

theorem WF_remove {mv mvr : MultiVector T} (hwf : WF mv) {vec : String} {i : Nat}
    {rs : List (Option (BumpyEntry (MultiEntry T)))}
    (h : mv.remove_entries vec i = (mvr, .ok rs)) : WF mvr := by
  cases hv : mv.getVec vec with
  | none =>
    rw [MultiVector.remove_entries, hv] at h
    rw [Prod.mk.injEq] at h
    exact absurd h.2 (by simp)
  | some v =>
    cases hget : v.get i with
    | none =>
      simp only [MultiVector.remove_entries, hv, hget] at h
      rw [Prod.mk.injEq] at h
      exact absurd h.2 (by simp)
    | some e =>
      have hER := hwf.link_res hv (mem_of_get hget)
      have hrun := remove_entries_spec hwf.2.1 hwf.1 hv hget hER.2.1
        (hwf.resolves hv (mem_of_get hget))
      rw [hrun] at h
      rw [Prod.mk.injEq] at h
      obtain ⟨heq, _⟩ := h
      rw [← heq]
      refine ⟨nodup_removeCoords hwf.1, AllOk_removeCoords hwf.2.1, ?_⟩
      intro p hp e' he'
      -- identify the surviving entry
      unfold removeCoords at hp
      rw [List.mem_map] at hp
      obtain ⟨⟨k, w⟩, hq, rfl⟩ := hp
      have hsurv : (!decide (((k, e'.index) : Coord) ∈ e.entry.linked)) = true :=
        (List.mem_filter.mp he').2
      rw [Bool.not_eq_true', decide_eq_false_iff_not] at hsurv
      have he'w : e' ∈ w.entries := List.mem_of_mem_filter he'
      have hgw : mv.getVec k = some w := getVec_of_mem hwf.1 hq
      have hFR := hwf.link_res hgw he'w
      refine ⟨hFR.1, hFR.2.1, ?_⟩
      intro c hc
      obtain ⟨ht, hht, htidx, htlink⟩ := hFR.2.2 c hc
      have hnc : ((c.1, ht.index) : Coord) ∉ e.entry.linked := by
        intro hcL
        have hcc' : ((c.1, ht.index) : Coord) = c := by rw [htidx]
        rw [hcc'] at hcL
        obtain ⟨ht2, hht2, htidx2, htlink2⟩ := hER.2.2 c hcL
        rw [hht] at hht2
        injection hht2 with hht2
        have hMe : e'.entry.linked = e.entry.linked := by
          rw [← htlink, hht2, htlink2]
        apply hsurv
        rw [← hMe]
        exact hFR.1
      have hh := @get_entry_removeCoords _ _ hwf.2.1 e.entry.linked c.1 c.2
      rw [hht] at hh
      show OptIs ((removeCoords mv e.entry.linked).get_entry c.1 c.2) _
      rw [hh]
      show OptIs (if ((c.1, ht.index) : Coord) ∈ e.entry.linked then none else some ht) _
      rw [if_neg hnc]
      exact ⟨htidx, htlink⟩

/-! ### Reachable states -/

/-- Registry states reachable from the empty registry by successful API
calls. `get_entries` is read-only in the embedding (it returns a result
without a successor state), so it contributes no transition. -/
inductive Reachable : MultiVector T → Prop where
  | base : Reachable MultiVector.new
  | create {mv mv' : MultiVector T} {name : String} {cap : Nat} :
      Reachable mv → mv.create_vector name cap = (mv', .ok ()) → Reachable mv'
  | destroy {mv mv' : MultiVector T} {name : String} {n : Nat} :
      Reachable mv → mv.destroy_vector name = (mv', .ok n) → Reachable mv'
  | insert {mv mv' : MultiVector T} {entries : List (String × T × Nat × Nat)} :
      Reachable mv → mv.insert_entries entries = (mv', .ok ()) → Reachable mv'
  | insert_one {mv mv' : MultiVector T} {vector : String} {data : T}
      {index size : Nat} :
      Reachable mv → mv.insert_entry vector data index size = (mv', .ok ()) →
      Reachable mv'
  | unlink {mv mv' : MultiVector T} {vector : String} {index : Nat} :
      Reachable mv → mv.unlink_entry vector index = .ok (mv', .ok ()) →
      Reachable mv'
  | remove {mv mv' : MultiVector T} {vector : String} {index : Nat}
      {rs : List (Option (BumpyEntry (MultiEntry T)))} :
      Reachable mv → mv.remove_entries vector index = (mv', .ok rs) →
      Reachable mv'

/-- Every reachable registry state is globally well formed. -/
theorem WF_reachable {mv : MultiVector T} (h : Reachable mv) : WF mv := by
  induction h with
  | base => exact WF_new
  | create _ hs ih => exact WF_create ih hs
  | destroy _ hs ih => exact WF_destroy ih hs
  | insert _ hs ih => exact WF_insert ih hs
  | insert_one _ hs ih => exact WF_insert ih hs
  | unlink _ hs ih => exact WF_unlink ih hs
  | remove _ hs ih => exact WF_remove ih hs

/-- Group consistency: every coordinate in any stored entry's link record
resolves to an entry carrying an equal link record. -/
def GroupConsistent (mv : MultiVector T) : Prop :=
  ∀ p ∈ mv.vectors, ∀ e ∈ p.2.entries, ∀ c ∈ e.entry.linked,
    ∃ f, mv.get_entry c.1 c.2 = some f ∧ f.entry.linked = e.entry.linked

end MultiVector

/-- C2: group consistency is an invariant of every operation — in any
registry state reachable from the empty registry by successful
`create_vector`, `destroy_vector`, `insert_entries`, `insert_entry`,
`unlink_entry`, `get_entries` (read-only) and `remove_entries` calls, every
coordinate in any stored entry's link record resolves to an entry whose own
link record equals that link record. -/
theorem C2_group_consistency {T : Type} {mv : MultiVector T}
    (h : MultiVector.Reachable mv) : MultiVector.GroupConsistent mv := by
  have hwf := MultiVector.WF_reachable h
  intro p hp e he c hc
  obtain ⟨_, _, hres⟩ := hwf.2.2 p hp e he
  obtain ⟨f, hf, hfp⟩ := (hres c hc).to_exists
  exact ⟨f, hf, hfp.2⟩

/-- C4: for a group of N entries inserted together (N ≥ 2), `unlink_entry` at
one member followed by `remove_entries` at that same member removes exactly
one entry (the returned list has one slot, and it is filled), and
`remove_entries` at any surviving original sibling afterwards removes exactly
the remaining N − 1 entries (N − 1 slots, all filled). -/
theorem C4_unlink_then_remove {T : Type} (mv : MultiVector T)
    (hwf : MultiVector.WF mv)
    (entries : List (String × T × Nat × Nat)) (hN : 2 ≤ entries.length)
    (mv1 : MultiVector T) (hins : mv.insert_entries entries = (mv1, .ok ()))
    (itj its : String × T × Nat × Nat) (hjmem : itj ∈ entries)
    (hsmem : its ∈ entries)
    (hne : ((itj.1, itj.2.2.1) : Coord) ≠ ((its.1, its.2.2.1) : Coord)) :
    ∃ mv2 mv3 mv4 rs1 rs2,
      mv1.unlink_entry itj.1 itj.2.2.1 = POr.ok (mv2, .ok ()) ∧
      mv2.remove_entries itj.1 itj.2.2.1 = (mv3, .ok rs1) ∧
      rs1.length = 1 ∧ (∀ r ∈ rs1, r ≠ none) ∧
      mv3.remove_entries its.1 its.2.2.1 = (mv4, .ok rs2) ∧
      rs2.length = entries.length - 1 ∧ (∀ r ∈ rs2, r ≠ none) := by
  have hwf1 : MultiVector.WF mv1 := MultiVector.WF_insert hwf hins
  obtain ⟨hmv1, hinv⟩ := (insert_entries_spec hwf.1).2 mv1 hins
  subst hmv1
  have hmemj : entryOf (entries.map fun it => (it.1, it.2.2.1)) itj ∈
      entries.map (entryOf (entries.map fun it => (it.1, it.2.2.1))) :=
    List.mem_map.mpr ⟨itj, hjmem, rfl⟩
  have hmems : entryOf (entries.map fun it => (it.1, it.2.2.1)) its ∈
      entries.map (entryOf (entries.map fun it => (it.1, it.2.2.1))) :=
    List.mem_map.mpr ⟨its, hsmem, rfl⟩
  have hrefsnodup : (entries.map fun it => (it.1, it.2.2.1)).Nodup := by
    have h := MultiVector.appsCoords_nodup hinv
    unfold appsCoords at h
    rw [List.map_map] at h
    exact h
  have hndL : (entryOf (entries.map fun it => (it.1, it.2.2.1)) itj).2.entry.linked.Nodup :=
    hrefsnodup
  have hej : (augment mv
      (entries.map (entryOf (entries.map fun it => (it.1, it.2.2.1))))).get_entry
      itj.1 itj.2.2.1 =
      some (entryOf (entries.map fun it => (it.1, it.2.2.1)) itj).2 :=
    get_entry_augment hinv hmemj (covers_self_index (hinv.szpos _ hmemj))
  have hes : (augment mv
      (entries.map (entryOf (entries.map fun it => (it.1, it.2.2.1))))).get_entry
      its.1 its.2.2.1 =
      some (entryOf (entries.map fun it => (it.1, it.2.2.1)) its).2 :=
    get_entry_augment hinv hmems (covers_self_index (hinv.szpos _ hmems))
  obtain ⟨v1, hv1, hget1⟩ := get_entry_eq_some.mp hej
  have hres1 : ∀ c ∈ (entryOf (entries.map fun it => (it.1, it.2.2.1)) itj).2.entry.linked.filter
      (fun c => !(c.1 == itj.1 &&
        c.2 == (entryOf (entries.map fun it => (it.1, it.2.2.1)) itj).2.index)),
      ∃ f, (augment mv
        (entries.map (entryOf (entries.map fun it => (it.1, it.2.2.1))))).get_entry
        c.1 c.2 = some f ∧ f.index = c.2 :=
    fun c hc => hwf1.resolves hv1 (MultiVector.mem_of_get hget1) c (List.mem_of_mem_filter hc)
  obtain ⟨mv2, hrun, hsome, hnone, hAll2, hstrip2⟩ :=
    MultiVector.unlink_entry_spec hwf1.2.1 hv1 hget1 rfl hres1
  have hwf2 : MultiVector.WF mv2 := MultiVector.WF_unlink hwf1 hrun
  have he2 := hsome itj.1 itj.2.2.1 _ hej
  rw [if_pos ⟨rfl, rfl⟩] at he2
  obtain ⟨v2, hv2, hget2⟩ := get_entry_eq_some.mp he2
  have hnd2 : (MultiVector.relink (entryOf (entries.map fun it => (it.1, it.2.2.1)) itj).2
      [(itj.1, (entryOf (entries.map fun it => (it.1, it.2.2.1)) itj).2.index)]).entry.linked.Nodup :=
    List.nodup_singleton _
  have hres2 := hwf2.resolves hv2 (MultiVector.mem_of_get hget2)
  have hrem1 := MultiVector.remove_entries_spec hwf2.2.1 hwf2.1 hv2 hget2 hnd2 hres2
  have hwf3 := MultiVector.WF_remove hwf2 hrem1
  -- the single-slot result of the first removal
  have hrs1len : ((MultiVector.relink (entryOf (entries.map fun it => (it.1, it.2.2.1)) itj).2
      [(itj.1, (entryOf (entries.map fun it => (it.1, it.2.2.1)) itj).2.index)]).entry.linked.map
      (fun c => mv2.get_entry c.1 c.2)).length = 1 := rfl
  have hrs1slots : ∀ r ∈ ((MultiVector.relink
        (entryOf (entries.map fun it => (it.1, it.2.2.1)) itj).2
        [(itj.1, (entryOf (entries.map fun it => (it.1, it.2.2.1)) itj).2.index)]).entry.linked.map
      (fun c => mv2.get_entry c.1 c.2)), r ≠ none := by
    intro r hr
    have hr' : r ∈ [mv2.get_entry itj.1 itj.2.2.1] := hr
    rw [List.mem_singleton] at hr'
    subst hr'
    rw [he2]
    simp
  -- the sibling in the post-unlink and post-removal states
  have hs2 := hsome its.1 its.2.2.1 _ hes
  have hc1 : ¬(its.1 = itj.1 ∧
      (entryOf (entries.map fun it => (it.1, it.2.2.1)) its).2.index =
      (entryOf (entries.map fun it => (it.1, it.2.2.1)) itj).2.index) := by
    intro hcc
    apply hne
    rw [Prod.mk.injEq]
    exact ⟨hcc.1.symm, hcc.2.symm⟩
  have hc2 : ((its.1, (entryOf (entries.map fun it => (it.1, it.2.2.1)) its).2.index) : Coord) ∈
      (entryOf (entries.map fun it => (it.1, it.2.2.1)) itj).2.entry.linked.filter
        (fun c => !(c.1 == itj.1 &&
          c.2 == (entryOf (entries.map fun it => (it.1, it.2.2.1)) itj).2.index)) := by
    rw [MultiVector.mem_filter_coord]
    constructor
    · exact List.mem_map.mpr ⟨its, hsmem, rfl⟩
    · intro hcc
      apply hne
      rw [Prod.mk.injEq]
      exact ⟨hcc.1.symm, hcc.2.symm⟩
  rw [if_neg hc1, if_pos hc2] at hs2
  have hnm : ((its.1, (MultiVector.relink (entryOf (entries.map fun it => (it.1, it.2.2.1)) its).2
      ((entryOf (entries.map fun it => (it.1, it.2.2.1)) itj).2.entry.linked.filter
        (fun c => !(c.1 == itj.1 &&
          c.2 == (entryOf (entries.map fun it => (it.1, it.2.2.1)) itj).2.index)))).index) : Coord) ∉
      (MultiVector.relink (entryOf (entries.map fun it => (it.1, it.2.2.1)) itj).2
        [(itj.1, (entryOf (entries.map fun it => (it.1, it.2.2.1)) itj).2.index)]).entry.linked := by
    intro hmem
    have hmem' : ((its.1, its.2.2.1) : Coord) ∈ [((itj.1, itj.2.2.1) : Coord)] := hmem
    rw [List.mem_singleton] at hmem'
    apply hne
    rw [Prod.mk.injEq] at hmem' ⊢
    exact ⟨hmem'.1.symm, hmem'.2.symm⟩
  have hes3 : (MultiVector.removeCoords mv2
      (MultiVector.relink (entryOf (entries.map fun it => (it.1, it.2.2.1)) itj).2
        [(itj.1, (entryOf (entries.map fun it => (it.1, it.2.2.1)) itj).2.index)]).entry.linked).get_entry
      its.1 its.2.2.1 =
      some (MultiVector.relink (entryOf (entries.map fun it => (it.1, it.2.2.1)) its).2
        ((entryOf (entries.map fun it => (it.1, it.2.2.1)) itj).2.entry.linked.filter
          (fun c => !(c.1 == itj.1 &&
            c.2 == (entryOf (entries.map fun it => (it.1, it.2.2.1)) itj).2.index)))) := by
    rw [MultiVector.get_entry_removeCoords hwf2.2.1 its.1 its.2.2.1]
    simp only [hs2]
    rw [if_neg hnm]
  obtain ⟨v3, hv3, hget3⟩ := get_entry_eq_some.mp hes3
  have hnd3 : (MultiVector.relink (entryOf (entries.map fun it => (it.1, it.2.2.1)) its).2
      ((entryOf (entries.map fun it => (it.1, it.2.2.1)) itj).2.entry.linked.filter
        (fun c => !(c.1 == itj.1 &&
          c.2 == (entryOf (entries.map fun it => (it.1, it.2.2.1)) itj).2.index)))).entry.linked.Nodup :=
    hndL.filter _
  have hres3 := hwf3.resolves hv3 (MultiVector.mem_of_get hget3)
  have hrem2 := MultiVector.remove_entries_spec hwf3.2.1 hwf3.1 hv3 hget3 hnd3 hres3
  -- the (N-1)-slot result of the sibling removal
  have haj : ((itj.1, (entryOf (entries.map fun it => (it.1, it.2.2.1)) itj).2.index) : Coord) ∈
      (entryOf (entries.map fun it => (it.1, it.2.2.1)) itj).2.entry.linked :=
    List.mem_map.mpr ⟨itj, hjmem, rfl⟩
  have h2 : ((entryOf (entries.map fun it => (it.1, it.2.2.1)) itj).2.entry.linked.filter
      (fun c => !(c.1 == itj.1 &&
        c.2 == (entryOf (entries.map fun it => (it.1, it.2.2.1)) itj).2.index))).length =
      (entryOf (entries.map fun it => (it.1, it.2.2.1)) itj).2.entry.linked.length - 1 :=
    MultiVector.length_filter_coord hndL haj
  have h3 : (entryOf (entries.map fun it => (it.1, it.2.2.1)) itj).2.entry.linked.length =
      entries.length :=
    List.length_map _ _
  have hrs2len : ((MultiVector.relink (entryOf (entries.map fun it => (it.1, it.2.2.1)) its).2
      ((entryOf (entries.map fun it => (it.1, it.2.2.1)) itj).2.entry.linked.filter
        (fun c => !(c.1 == itj.1 &&
          c.2 == (entryOf (entries.map fun it => (it.1, it.2.2.1)) itj).2.index)))).entry.linked.map
      (fun c => (MultiVector.removeCoords mv2
        (MultiVector.relink (entryOf (entries.map fun it => (it.1, it.2.2.1)) itj).2
          [(itj.1, (entryOf (entries.map fun it => (it.1, it.2.2.1)) itj).2.index)]).entry.linked).get_entry
        c.1 c.2)).length = entries.length - 1 := by
    rw [List.length_map]
    show ((entryOf (entries.map fun it => (it.1, it.2.2.1)) itj).2.entry.linked.filter
      (fun c => !(c.1 == itj.1 &&
        c.2 == (entryOf (entries.map fun it => (it.1, it.2.2.1)) itj).2.index))).length =
      entries.length - 1
    rw [h2, h3]
  have hrs2slots : ∀ r ∈ ((MultiVector.relink
        (entryOf (entries.map fun it => (it.1, it.2.2.1)) its).2
        ((entryOf (entries.map fun it => (it.1, it.2.2.1)) itj).2.entry.linked.filter
          (fun c => !(c.1 == itj.1 &&
            c.2 == (entryOf (entries.map fun it => (it.1, it.2.2.1)) itj).2.index)))).entry.linked.map
      (fun c => (MultiVector.removeCoords mv2
        (MultiVector.relink (entryOf (entries.map fun it => (it.1, it.2.2.1)) itj).2
          [(itj.1, (entryOf (entries.map fun it => (it.1, it.2.2.1)) itj).2.index)]).entry.linked).get_entry
        c.1 c.2)), r ≠ none := by
    intro r hr
    rw [List.mem_map] at hr
    obtain ⟨c, hcmem, rfl⟩ := hr
    obtain ⟨f, hfc, _⟩ := hres3 c hcmem
    rw [hfc]
    simp
  exact ⟨mv2, _, _, _, _, hrun, hrem1, hrs1len, hrs1slots, hrem2, hrs2len, hrs2slots⟩

/-- C5: `unlink_entry` computes the coordinate it removes from the group's
link records from the entry's stored start offset, not the caller-supplied
lookup offset: for any lookup offset inside the entry's span, the unlinked
entry's record afterwards is the singleton at the stored start, and every
remaining sibling's record is the original list with the stored-start
coordinate removed, order preserved. -/
theorem C5_unlink_stored_start {T : Type} (mv : MultiVector T)
    (hwf : MultiVector.WF mv) (buffer : String) (off : Nat)
    (v : BumpyVector (MultiEntry T)) (hv : mv.getVec buffer = some v)
    (e : BumpyEntry (MultiEntry T)) (hget : v.get off = some e) :
    ∃ mv', mv.unlink_entry buffer off = .ok (mv', .ok ()) ∧
      mv'.get_entry buffer e.index = some (MultiVector.relink e [(buffer, e.index)]) ∧
      ∀ c ∈ e.entry.linked.filter (fun c => !(c.1 == buffer && c.2 == e.index)),
        ∃ f, mv.get_entry c.1 c.2 = some f ∧
          mv'.get_entry c.1 c.2 = some (MultiVector.relink f
            (e.entry.linked.filter (fun c => !(c.1 == buffer && c.2 == e.index)))) := by
  have hAll := hwf.2.1
  have hres := MultiVector.WF.resolves hwf hv (MultiVector.mem_of_get hget)
  have hres' : ∀ c ∈ e.entry.linked.filter (fun c => !(c.1 == buffer && c.2 == e.index)),
      ∃ f, mv.get_entry c.1 c.2 = some f ∧ f.index = c.2 :=
    fun c hc => hres c (List.mem_of_mem_filter hc)
  obtain ⟨mv', hrun, hsome, _, _, _⟩ :=
    MultiVector.unlink_entry_spec hAll hv hget rfl hres'
  refine ⟨mv', hrun, ?_, ?_⟩
  · have hee : mv.get_entry buffer e.index = some e :=
      MultiVector.get_entry_of_covers hAll hv (MultiVector.mem_of_get hget)
        (covers_self_index ((MultiVector.VecOk_of_getVec hAll hv).2 e
          (MultiVector.mem_of_get hget)))
    have h1 := hsome buffer e.index e hee
    rw [if_pos ⟨rfl, rfl⟩] at h1
    exact h1
  · intro c hc
    obtain ⟨f, hf, hfi⟩ := hres' c hc
    refine ⟨f, hf, ?_⟩
    have h1 := hsome c.1 c.2 f hf
    rw [if_neg (show ¬(c.1 = buffer ∧ f.index = e.index) from by
      intro hcond
      have hc' := (List.mem_filter.mp hc).2
      rw [Bool.not_eq_true'] at hc'
      have hT : (c.1 == buffer && c.2 == e.index) = true := by
        rw [Bool.and_eq_true]
        exact ⟨beq_iff_eq.mpr hcond.1, beq_iff_eq.mpr (by rw [← hfi]; exact hcond.2)⟩
      rw [hT] at hc'
      cases hc')] at h1
    have hcc : ((c.1, f.index) : Coord) = c := by
      rw [hfi]
    rw [hcc, if_pos hc] at h1
    exact h1

/-- C9: `unlink_entry` fails, with an error and no state change, exactly when
the vector is unknown or no entry covers the offset; on success it changes
only link records — the link-stripped registry, and hence the vector set and
every entry's offset, size and payload, and all entry counts, are unchanged. -/
theorem C9_unlink_frame {T : Type} (mv : MultiVector T) (hwf : MultiVector.WF mv)
    (vec : String) (i : Nat) :
    (mv.get_entry vec i = none →
      ∃ msg, mv.unlink_entry vec i = .ok (mv, .error msg)) ∧
    (∀ v e, mv.getVec vec = some v → v.get i = some e →
      ∃ mv', mv.unlink_entry vec i = .ok (mv', .ok ()) ∧
        mv'.stripLinks = mv.stripLinks ∧ mv'.len = mv.len) := by
  constructor
  · intro hnone
    cases hv : mv.getVec vec with
    | none => exact ⟨_, MultiVector.unlink_entry_no_vector hv⟩
    | some v =>
      cases hget : v.get i with
      | some e =>
        exfalso
        have hsome : mv.get_entry vec i = some e := by
          unfold MultiVector.get_entry
          rw [hv]
          exact hget
        rw [hsome] at hnone
        cases hnone
      | none => exact ⟨_, MultiVector.unlink_entry_no_entry hv hget⟩
  · intro v e hv hget
    have hres' : ∀ c ∈ e.entry.linked.filter (fun c => !(c.1 == vec && c.2 == e.index)),
        ∃ f, mv.get_entry c.1 c.2 = some f ∧ f.index = c.2 :=
      fun c hc => MultiVector.WF.resolves hwf hv (MultiVector.mem_of_get hget) c
        (List.mem_of_mem_filter hc)
    obtain ⟨mv', hrun, _, _, _, hstrip⟩ :=
      MultiVector.unlink_entry_spec hwf.2.1 hv hget rfl hres'
    refine ⟨mv', hrun, hstrip, ?_⟩
    calc mv'.len = mv'.stripLinks.len := MultiVector.len_stripLinks.symm
      _ = mv.stripLinks.len := by rw [hstrip]
      _ = mv.len := MultiVector.len_stripLinks

/-- C10: unlinking an entry whose link record is already the self-singleton
succeeds and changes nothing, so on a well-formed registry a second
`unlink_entry` at the same covered offset after a successful first one has no
further effect. -/
theorem C10_unlink_idempotent {T : Type} (mv : MultiVector T) :
    (∀ vec i v e, mv.getVec vec = some v → v.get i = some e →
      e.entry.linked = [(vec, e.index)] →
      mv.unlink_entry vec i = .ok (mv, .ok ())) ∧
    (MultiVector.WF mv → ∀ vec i mv', mv.unlink_entry vec i = .ok (mv', .ok ()) →
      mv'.unlink_entry vec i = .ok (mv', .ok ())) := by
  constructor
  · intro vec i v e hv hget hlink
    exact MultiVector.unlink_self_singleton hv hget hlink
  · intro hwf vec i mv' hrun
    cases hv : mv.getVec vec with
    | none =>
      rw [MultiVector.unlink_entry_no_vector hv] at hrun
      injection hrun with hp
      rw [Prod.mk.injEq] at hp
      exact absurd hp.2 (by simp)
    | some v =>
      cases hget : v.get i with
      | none =>
        rw [MultiVector.unlink_entry_no_entry hv hget] at hrun
        injection hrun with hp
        rw [Prod.mk.injEq] at hp
        exact absurd hp.2 (by simp)
      | some e =>
        have hres' : ∀ c ∈ e.entry.linked.filter
            (fun c => !(c.1 == vec && c.2 == e.index)),
            ∃ f, mv.get_entry c.1 c.2 = some f ∧ f.index = c.2 :=
          fun c hc => MultiVector.WF.resolves hwf hv (MultiVector.mem_of_get hget) c
            (List.mem_of_mem_filter hc)
        obtain ⟨mv'', hrun'', hsome, _, _, _⟩ :=
          MultiVector.unlink_entry_spec hwf.2.1 hv hget rfl hres'
        rw [hrun''] at hrun
        injection hrun with hp
        rw [Prod.mk.injEq] at hp
        obtain ⟨hmz, _⟩ := hp
        subst hmz
        have hee : mv.get_entry vec i = some e := by
          unfold MultiVector.get_entry
          rw [hv]
          exact hget
        have h1 := hsome vec i e hee
        rw [if_pos ⟨rfl, rfl⟩] at h1
        obtain ⟨v2, hv2, hget2⟩ := get_entry_eq_some.mp h1
        exact MultiVector.unlink_self_singleton hv2 hget2 rfl

/-- A registry with a dangling link coordinate (as could arise from corrupted
deserialized state): the single entry in vector `A` carries a link record
whose second coordinate names a vector `B` that does not exist. -/
def mvBad : MultiVector Nat :=
  ⟨[("A", ⟨100, [⟨⟨"A", 7, [("A", 0), ("B", 5)]⟩, 0, 10⟩]⟩)]⟩

/-- C6 counterexample: contrary to the claim that `unlink_entry` tolerates a
dangling coordinate by returning, it panics (the Rust `unwrap`) on this
concrete registry whose stored link record names a missing vector. -/
theorem C6_unlink_panics_on_dangling :
    MultiVector.unlink_entry mvBad "A" 0 = POr.panicked := by
  rfl

/-- C6 (amended): `get_entries` and `remove_entries` tolerate dangling link
coordinates, reporting a per-slot absence without failing the call; but
`unlink_entry` on an entry whose link record contains a dangling non-self
coordinate panics (the Rust `unwrap`) rather than returning. -/
theorem C6_dangling_handling {T : Type} (mv : MultiVector T) (vec : String) (i : Nat)
    (v : BumpyVector (MultiEntry T)) (hv : mv.getVec vec = some v)
    (e : BumpyEntry (MultiEntry T)) (hget : v.get i = some e) :
    mv.get_entries vec i = .ok (e.entry.linked.map (fun c => mv.get_entry c.1 c.2)) ∧
    (∃ mv2 rs, mv.remove_entries vec i = (mv2, .ok rs) ∧
      rs.length = e.entry.linked.length) ∧
    (MultiVector.AllOk mv →
      (∃ c ∈ e.entry.linked.filter (fun c => !(c.1 == vec && c.2 == e.index)),
        mv.get_entry c.1 c.2 = none) →
      mv.unlink_entry vec i = POr.panicked) := by
  refine ⟨MultiVector.get_entries_found hv hget, ?_, ?_⟩
  · exact ⟨_, _, MultiVector.remove_entries_found hv hget,
      MultiVector.remove_loop_length⟩
  · intro hAll hdang
    obtain ⟨c, hc, hcnone⟩ := hdang
    rw [MultiVector.unlink_entry]
    simp only [hv, hget]
    have hstep := @MultiVector.get_entry_setLinked_step _ _ hAll _ _ hv _ _ hget
      [(vec, e.index)]
    have hvOk := MultiVector.VecOk_of_getVec hAll hv
    have hAll1 : MultiVector.AllOk
        (mv.setVec vec ⟨v.max_size, MultiVector.setLinkedAt v.entries i [(vec, e.index)]⟩) :=
      MultiVector.AllOk_setVec hAll
        ⟨MultiVector.pw_setLinkedAt hvOk.1, MultiVector.szok_setLinkedAt hvOk.2⟩
    have hd1 : (mv.setVec vec
        ⟨v.max_size, MultiVector.setLinkedAt v.entries i [(vec, e.index)]⟩).get_entry
        c.1 c.2 = none := by
      rw [hstep c.1 c.2]
      by_cases hcnd : c.1 = vec ∧ covers e c.2 = true
      · exfalso
        have : mv.get_entry vec c.2 = some e :=
          MultiVector.get_entry_of_covers hAll hv (MultiVector.mem_of_get hget) hcnd.2
        rw [hcnd.1, this] at hcnone
        cases hcnone
      · rw [if_neg hcnd]
        exact hcnone
    have hpanic := @MultiVector.unlink_loop_panics _
      (e.entry.linked.filter (fun c => !(c.1 == vec && c.2 == e.index)))
      _ _ hAll1 ⟨c, hc, hd1⟩
    rw [hpanic]

/-! ### Concrete instances exercising the claim theorems -/

/-- A concrete two-vector registry. -/
def mvW : MultiVector Nat := ⟨[("A", ⟨100, []⟩), ("B", ⟨100, []⟩)]⟩

/-- A two-member group spanning both vectors of `mvW`. -/
def entriesW : List (String × Nat × Nat × Nat) := [("A", 7, 0, 4), ("B", 8, 10, 2)]

/-- C1 witness: the atomicity theorem at `mvW` with the group `entriesW`;
after the successful insertion the first member is visible with the full
caller-order link record. -/
theorem C1_insert_entries_atomic_witness :
    MultiVector.KeysNodup mvW ∧
    (mvW.insert_entries entriesW).1.get_entry "A" 0 =
      some ⟨⟨"A", 7, [("A", 0), ("B", 10)]⟩, 0, 4⟩ :=
  ⟨by decide,
    (C1_insert_entries_atomic mvW entriesW (by decide)).2.1
      (mvW.insert_entries entriesW).1 rfl "A" 7 0 4 (by decide)⟩

/-- The concrete states reached from the empty registry by two
`create_vector` calls and one `insert_entries` call. -/
def mvS0 : MultiVector Nat := (MultiVector.new.create_vector "A" 100).1

/-- The second reached state. -/
def mvS1 : MultiVector Nat := (mvS0.create_vector "B" 100).1

/-- The third reached state. -/
def mvS2 : MultiVector Nat := (mvS1.insert_entries entriesW).1

/-- C2 witness: group consistency at a state concretely reached from the
empty registry by two `create_vector` calls and one `insert_entries` call. -/
theorem C2_group_consistency_witness : MultiVector.GroupConsistent mvS2 :=
  C2_group_consistency
    (MultiVector.Reachable.insert
      (MultiVector.Reachable.create
        (MultiVector.Reachable.create MultiVector.Reachable.base
          (rfl : MultiVector.new.create_vector "A" 100 = (mvS0, .ok ())))
        (rfl : mvS0.create_vector "B" 100 = (mvS1, .ok ())))
      (rfl : mvS1.insert_entries entriesW = (mvS2, .ok ())))

/-- C3 witness: removing at offset 2 — inside the first member's span
[0, 4) but off its start — removes the whole group in insertion order and
restores `mvW`. -/
theorem C3_remove_group_roundtrip_witness :
    (mvW.insert_entries entriesW).1.remove_entries "A" 2 =
      (mvW, Except.ok
        [some ⟨⟨"A", 7, [("A", 0), ("B", 10)]⟩, 0, 4⟩,
          some ⟨⟨"B", 8, [("A", 0), ("B", 10)]⟩, 10, 2⟩]) :=
  C3_remove_group_roundtrip mvW entriesW (by decide) (mvW.insert_entries entriesW).1 rfl
    "A" 7 0 4 (by decide) 2 (by decide) (by decide)

/-- C4 witness: unlink then remove at the first member of the concrete
two-member group, then remove at the surviving sibling. -/
theorem C4_unlink_then_remove_witness :
    ∃ mv2 mv3 mv4 rs1 rs2,
      (mvW.insert_entries entriesW).1.unlink_entry "A" 0 = POr.ok (mv2, .ok ()) ∧
      mv2.remove_entries "A" 0 = (mv3, .ok rs1) ∧
      rs1.length = 1 ∧ (∀ r ∈ rs1, r ≠ none) ∧
      mv3.remove_entries "B" 10 = (mv4, .ok rs2) ∧
      rs2.length = entriesW.length - 1 ∧ (∀ r ∈ rs2, r ≠ none) :=
  C4_unlink_then_remove mvW (by decide) entriesW (by decide)
    (mvW.insert_entries entriesW).1 rfl ("A", 7, 0, 4) ("B", 8, 10, 2)
    (by decide) (by decide) (by decide)

/-- C5 witness: unlinking via lookup offset 2 rewrites using the stored
start offset 0. -/
theorem C5_unlink_stored_start_witness :
    ∃ mv', (mvW.insert_entries entriesW).1.unlink_entry "A" 2 = .ok (mv', .ok ()) ∧
      mv'.get_entry "A" 0 = some (MultiVector.relink
        ⟨⟨"A", 7, [("A", 0), ("B", 10)]⟩, 0, 4⟩ [("A", 0)]) ∧
      ∀ c ∈ ([("A", 0), ("B", 10)] : List Coord).filter
          (fun c => !(c.1 == "A" && c.2 == 0)),
        ∃ f, (mvW.insert_entries entriesW).1.get_entry c.1 c.2 = some f ∧
          mv'.get_entry c.1 c.2 = some (MultiVector.relink f
            (([("A", 0), ("B", 10)] : List Coord).filter
              (fun c => !(c.1 == "A" && c.2 == 0)))) :=
  C5_unlink_stored_start (mvW.insert_entries entriesW).1 (by decide) "A" 2
    ⟨100, [⟨⟨"A", 7, [("A", 0), ("B", 10)]⟩, 0, 4⟩]⟩ rfl
    ⟨⟨"A", 7, [("A", 0), ("B", 10)]⟩, 0, 4⟩ rfl

/-- C6 witness: at the dangling registry `mvBad`, `get_entries` and
`remove_entries` report the dangling slot per-slot, while `unlink_entry`
panics. -/
theorem C6_dangling_handling_witness :
    mvBad.get_entries "A" 0 = .ok
      [some ⟨⟨"A", 7, [("A", 0), ("B", 5)]⟩, 0, 10⟩, none] ∧
    (∃ mv2 rs, mvBad.remove_entries "A" 0 = (mv2, .ok rs) ∧
      rs.length = ([("A", 0), ("B", 5)] : List Coord).length) ∧
    mvBad.unlink_entry "A" 0 = POr.panicked := by
  have h := C6_dangling_handling mvBad "A" 0
    ⟨100, [⟨⟨"A", 7, [("A", 0), ("B", 5)]⟩, 0, 10⟩]⟩ rfl
    ⟨⟨"A", 7, [("A", 0), ("B", 5)]⟩, 0, 10⟩ rfl
  exact ⟨h.1, h.2.1, h.2.2 (by decide) ⟨("B", 5), by decide, by decide⟩⟩

/-- C9 witness: the frame theorem at the concrete inserted registry, at
lookup offset 2 inside the first member's span. -/
theorem C9_unlink_frame_witness :
    ((mvW.insert_entries entriesW).1.get_entry "A" 2 = none →
      ∃ msg, (mvW.insert_entries entriesW).1.unlink_entry "A" 2 =
        POr.ok ((mvW.insert_entries entriesW).1, .error msg)) ∧
    (∀ v e, (mvW.insert_entries entriesW).1.getVec "A" = some v → v.get 2 = some e →
      ∃ mv', (mvW.insert_entries entriesW).1.unlink_entry "A" 2 = POr.ok (mv', .ok ()) ∧
        mv'.stripLinks = (mvW.insert_entries entriesW).1.stripLinks ∧
        mv'.len = (mvW.insert_entries entriesW).1.len) :=
  C9_unlink_frame (mvW.insert_entries entriesW).1 (by decide) "A" 2

end MVec
